import Mathlib

/-!
Verification of the ordering and lookup engine of the student grading
system (file student_grading.py): the from-scratch quicksort over record
attributes and the first-occurrence binary search with duplicate
expansion.

Modelling choices (shallow embedding):
* A Python attribute value is either a string or a number.  Numbers
  (ints and floats in Python) are modelled as rationals; the textual
  form of an integral number agrees with Python (for example 10 prints
  as "10", as for a Python int).
* A record (Python dict) is an association list from field names to
  values; dict access is fallible and modelled with Option, where none
  plays the role of a raised KeyError or IndexError.
* The recursive functions are driven by an explicit fuel argument so
  that they are structurally recursive and kernel-computable.  The
  callers pass fuel equal to the list length, which is proved adequate
  below (quicksortF_fuel_irrel and the some-typed results): with the
  attribute present the functions never run out of fuel, and a none
  result corresponds exactly to a Python exception.
-/

/-- Attribute values: Python strings or Python numbers (int/float),
numbers modelled as rationals. -/
inductive Value where
  | str : String → Value
  | num : Rat → Value
deriving DecidableEq, Repr

/-- Textual form of a value, modelling the Python str() coercion used in
the string branch of the comparisons.  Integral numbers print exactly as
Python ints do. -/
def Value.toText : Value → String
  | .str s => s
  | .num q => toString q

/-- Whether a value is numeric (Python isinstance(v, (int, float))). -/
def Value.isNum : Value → Bool
  | .str _ => false
  | .num _ => true

/-- Lower-casing of a string as its character list, modelling the Python
str.lower() call (faithful on ASCII data). -/
def lowerChars (s : String) : List Char := s.data.map Char.toLower

/-- Three-way comparison by two strict-order tests, the exact shape of
the comparison cascades in quicksort and binary_search: first test
x less than y, then y less than x, otherwise equal. -/
def ord3 {K : Type} [LinearOrder K] (x y : K) : Ordering :=
  if x < y then Ordering.lt else if y < x then Ordering.gt else Ordering.eq

/-- Python string comparison, three-way: lexicographic on the code
points of the characters, shorter prefixes first. -/
def lexOrd3 : List Char → List Char → Ordering
  | [], [] => Ordering.eq
  | [], _ :: _ => Ordering.lt
  | _ :: _, [] => Ordering.gt
  | c :: s, d :: t =>
    if c.toNat < d.toNat then Ordering.lt
    else if d.toNat < c.toNat then Ordering.gt
    else lexOrd3 s t

/-- The comparison rule shared by quicksort and binary_search: when both
values are numeric, compare numerically; otherwise coerce both to their
textual form and compare the lower-cased texts lexicographically. -/
def cmpVal (value pivot : Value) : Ordering :=
  match value, pivot with
  | .num p, .num q => ord3 p q
  | v, w => lexOrd3 (lowerChars v.toText) (lowerChars w.toText)

/-- A student record: a Python dict from field names to values. -/
abbrev Record := List (String × Value)

/-- Dict access student[attr]: none models a raised KeyError. -/
def getAttr (r : Record) (a : String) : Option Value :=
  (List.find? (fun p => p.fst == a) r).map Prod.snd

/-- The single partitioning pass of quicksort: walk the input once and
split it into the less-than, equal-to and greater-than-pivot groups,
preserving input order inside each group.  none models a KeyError on a
record missing the attribute. -/
def part3 (a : String) (pivot : Value) :
    List Record → Option (List Record × List Record × List Record)
  | [] => some ([], [], [])
  | student :: rest =>
    match getAttr student a with
    | none => none
    | some value =>
      match part3 a pivot rest with
      | none => none
      | some (less, equal, greater) =>
        match cmpVal value pivot with
        | .lt => some (student :: less, equal, greater)
        | .eq => some (less, student :: equal, greater)
        | .gt => some (less, equal, student :: greater)

/-- Fuel-driven quicksort.  Base case: length at most one returns the
list unchanged (Python returns students.copy()).  Otherwise the pivot is
the attribute value of the element at the middle index, the list is
partitioned in one pass, and the parts are recombined with the equal
group in the middle; descending order swaps which recursive result goes
on which side.  The fuel only bounds the recursion depth; the wrapper
quicksort passes the list length, which always suffices.  The none
branch of the middle-index lookup is dead code: under the length guard
the index length / 2 is always in range, as in the source. -/
def quicksortF (a : String) (reverse : Bool) :
    Nat → List Record → Option (List Record)
  | 0, students =>
    if students.length ≤ 1 then some students else none
  | fuel + 1, students =>
    if students.length ≤ 1 then some students
    else
      match students[students.length / 2]? with
      | none => none
      | some pivotRec =>
        match getAttr pivotRec a with
        | none => none
        | some pivot =>
          match part3 a pivot students with
          | none => none
          | some (less, equal, greater) =>
            match quicksortF a reverse fuel less, quicksortF a reverse fuel greater with
            | some sl, some sg =>
              if reverse then some (sg ++ equal ++ sl) else some (sl ++ equal ++ sg)
            | _, _ => none

/-- The quicksort entry point of the source: sort students by the given
attribute, descending when reverse is true.  Returns none exactly when
Python raises (attribute missing from some record). -/
def quicksort (students : List Record) (a : String) (reverse : Bool) :
    Option (List Record) :=
  quicksortF a reverse students.length students

/-- The first phase of binary_search: the while loop locating the first
occurrence.  The Python loop keeps inclusive bounds left and right;
here stop stands for right + 1 so that the bounds stay natural numbers
(right = mid - 1 becomes stop = mid, and the guard left <= right becomes
left < stop).  firstIndex accumulates the last index seen to match.
Fuel bounds the number of iterations; stop - left always suffices. -/
def bsearchLoop (students : List Record) (a : String) (searchValue : Value) :
    Nat → Nat → Nat → Option Nat → Option (Option Nat)
  | 0, left, stop, firstIndex =>
    if left < stop then none else some firstIndex
  | fuel + 1, left, stop, firstIndex =>
    if left < stop then
        let mid := (left + stop - 1) / 2
        match students[mid]? with
        | none => none
        | some r =>
          match getAttr r a with
          | none => none
          | some midValue =>
            match cmpVal midValue searchValue with
            | .eq => bsearchLoop students a searchValue fuel left mid (some mid)
            | .lt => bsearchLoop students a searchValue fuel (mid + 1) stop firstIndex
            | .gt => bsearchLoop students a searchValue fuel left mid firstIndex
    else some firstIndex

/-- The second phase of binary_search: starting at index i, walk right
collecting every consecutive record whose key equals the search value,
stopping at the first non-match or the end.  Fuel bounds the walk;
length - i always suffices. -/
def scanForward (students : List Record) (a : String) (searchValue : Value) :
    Nat → Nat → Option (List Record)
  | 0, i =>
    if i < students.length then none else some []
  | fuel + 1, i =>
    if i < students.length then
        match students[i]? with
        | none => none
        | some r =>
          match getAttr r a with
          | none => none
          | some v =>
            if cmpVal v searchValue = Ordering.eq then
              match scanForward students a searchValue fuel (i + 1) with
              | none => none
              | some rest => some (r :: rest)
            else some []
    else some []

/-- The third phase of binary_search: starting one position left of the
located index, walk left inserting every consecutive matching record at
the front of the accumulated results.  The index argument j stands for
i + 1, so the Python guard i >= 0 becomes j > 0 and the walk is
structural on j. -/
def scanBackward (students : List Record) (a : String) (searchValue : Value) :
    Nat → List Record → Option (List Record)
  | 0, acc => some acc
  | j + 1, acc =>
    match students[j]? with
    | none => none
    | some r =>
      match getAttr r a with
      | none => none
      | some v =>
        if cmpVal v searchValue = Ordering.eq then
          scanBackward students a searchValue j (r :: acc)
        else some acc

/-- The binary_search entry point of the source: locate one match with
the biased binary search, then expand right and left to collect every
record sharing the key.  Returns some [] when no record matches, and
none exactly when Python raises. -/
def binary_search (students : List Record) (a : String) (searchValue : Value) :
    Option (List Record) :=
  if students.isEmpty then some []
  else
    match bsearchLoop students a searchValue students.length 0 students.length none with
    | none => none
    | some none => some []
    | some (some firstIndex) =>
      match scanForward students a searchValue (students.length - firstIndex) firstIndex with
      | none => none
      | some fwd => scanBackward students a searchValue firstIndex fwd

/-! Spec-side helpers used only in theorem statements and hypotheses,
never inside the embedded functions. -/

/-- The attribute value of a record, defaulting to the empty string;
meaningful only under the presence hypotheses that accompany it. -/
def attrOf (a : String) (r : Record) : Value :=
  (getAttr r a).getD (Value.str "")

/-- Three-way comparison of two records on an attribute. -/
def ordAt (a : String) (r1 r2 : Record) : Ordering :=
  cmpVal (attrOf a r1) (attrOf a r2)

/-- Adjacent-pair ordering for ascending output: the earlier record does
not compare greater than the later one. -/
def ascAdj (a : String) (r1 r2 : Record) : Prop :=
  ordAt a r1 r2 ≠ Ordering.gt

/-- Adjacent-pair ordering for descending output. -/
def descAdj (a : String) (r1 r2 : Record) : Prop :=
  ordAt a r1 r2 ≠ Ordering.lt

instance (a : String) : DecidableRel (ascAdj a) := fun r1 r2 =>
  inferInstanceAs (Decidable (ordAt a r1 r2 ≠ Ordering.gt))

instance (a : String) : DecidableRel (descAdj a) := fun r1 r2 =>
  inferInstanceAs (Decidable (ordAt a r1 r2 ≠ Ordering.lt))

/-- A record has the attribute. -/
def hasAttr (a : String) (r : Record) : Bool :=
  (getAttr r a).isSome

/-- Every record of the list carries the attribute. -/
def allHave (a : String) (ss : List Record) : Prop :=
  ∀ r ∈ ss, hasAttr a r = true

/-- The record's attribute is present and numeric. -/
def numAttr (a : String) (r : Record) : Bool :=
  match getAttr r a with
  | some (.num _) => true
  | _ => false

/-- The record's attribute is present and a string. -/
def strAttr (a : String) (r : Record) : Bool :=
  match getAttr r a with
  | some (.str _) => true
  | _ => false

/-- All attribute values of the list are numeric. -/
def allNumA (a : String) (ss : List Record) : Prop :=
  ∀ r ∈ ss, numAttr a r = true

/-- All attribute values of the list are strings. -/
def allStrA (a : String) (ss : List Record) : Prop :=
  ∀ r ∈ ss, strAttr a r = true

/-- The attribute values of the list are homogeneous in kind. -/
def homogA (a : String) (ss : List Record) : Prop :=
  allNumA a ss ∨ allStrA a ss

instance (a : String) (ss : List Record) : Decidable (allHave a ss) :=
  inferInstanceAs (Decidable (∀ r ∈ ss, hasAttr a r = true))

instance (a : String) (ss : List Record) : Decidable (allNumA a ss) :=
  inferInstanceAs (Decidable (∀ r ∈ ss, numAttr a r = true))

instance (a : String) (ss : List Record) : Decidable (allStrA a ss) :=
  inferInstanceAs (Decidable (∀ r ∈ ss, strAttr a r = true))

instance (a : String) (ss : List Record) : Decidable (homogA a ss) :=
  inferInstanceAs (Decidable (allNumA a ss ∨ allStrA a ss))

/-- Boolean tests on orderings, used as filter predicates. -/
def isLt : Ordering → Bool
  | .lt => true
  | _ => false

def isEqO : Ordering → Bool
  | .eq => true
  | _ => false

def isGt : Ordering → Bool
  | .gt => true
  | _ => false

/-- The record's key equals the search value under the comparison
rule. -/
def matchesVal (a : String) (v : Value) (r : Record) : Bool :=
  isEqO (cmpVal (attrOf a r) v)

/-- Numeric content of a value (spec-side key extraction). -/
def ratOf : Value → Rat
  | .num q => q
  | .str _ => 0

/-- String key of a value: its lower-cased textual form (spec-side key
extraction). -/
def strKeyOf (v : Value) : List Char := lowerChars v.toText

/-- Partition classifier: how a record compares against the pivot value
(this is the comparison computed inside the partition loop). -/
def pclass (a : String) (pivot : Value) (r : Record) : Ordering :=
  cmpVal (attrOf a r) pivot

/-- The records of a list are consistently keyed by a key map for
pairwise comparisons: on any two of them the shared comparison rule
agrees with the linear order of their keys.  This holds whenever the
attribute values are homogeneous in kind. -/
def KeyCompat {K : Type} [LinearOrder K] (κ : Record → K) (a : String)
    (ss : List Record) : Prop :=
  ∀ r ∈ ss, ∀ r' ∈ ss,
    (ordAt a r r' = Ordering.lt ↔ κ r < κ r') ∧
    (ordAt a r r' = Ordering.eq ↔ κ r = κ r')

/-- The records of a list are consistently keyed against a search value
with key kv: comparing any of their attribute values with the search
value agrees with the order of the keys. -/
def ValCompat {K : Type} [LinearOrder K] (κ : Record → K) (a : String)
    (v : Value) (kv : K) (ss : List Record) : Prop :=
  ∀ r ∈ ss,
    (cmpVal (attrOf a r) v = Ordering.lt ↔ κ r < kv) ∧
    (cmpVal (attrOf a r) v = Ordering.eq ↔ κ r = kv)

/-! Heap-level model of quicksort, used for the frame claims about
mutation and aliasing.  Python list objects live in a store and are
designated by addresses; list literals allocate, list.append mutates the
object in place.  This is the same source function as quicksortF above,
re-read at the level of object identity. -/

/-- A store of Python list objects; an address is an index into it. -/
abbrev Store := List (List Record)

/-- Allocate a fresh list object holding xs; returns the grown store and
the fresh address. -/
def alloc (st : Store) (xs : List Record) : Store × Nat :=
  (st ++ [xs], st.length)

/-- Read the list object at an address. -/
def readL (st : Store) (p : Nat) : Option (List Record) :=
  st[p]?

/-- In-place list.append(r) on the object at address p. -/
def appendL (st : Store) (p : Nat) (r : Record) : Option Store :=
  match st[p]? with
  | none => none
  | some xs => some (st.set p (xs ++ [r]))

/-- The partition loop at the heap level: classify each record by the
comparison rule and append it in place to the group object it belongs
to. -/
def partLoop (a : String) (pivot : Value) (lp ep gp : Nat) :
    List Record → Store → Option Store
  | [], st => some st
  | r :: rest, st =>
    match getAttr r a with
    | none => none
    | some v =>
      match
        (match cmpVal v pivot with
          | .lt => appendL st lp r
          | .eq => appendL st ep r
          | .gt => appendL st gp r) with
      | none => none
      | some st2 => partLoop a pivot lp ep gp rest st2

/-- Quicksort at the heap level: reads the input object, allocates a
copy in the base case, otherwise allocates the three group objects,
fills them with the partition loop, recurses on the less and greater
addresses, and allocates the concatenated result; the input object is
only ever read. -/
def quicksortH (a : String) (reverse : Bool) :
    Nat → Store → Nat → Option (Store × Nat)
  | 0, st, p =>
    match readL st p with
    | none => none
    | some students =>
      if students.length ≤ 1 then some (alloc st students) else none
  | fuel + 1, st, p =>
    match readL st p with
    | none => none
    | some students =>
      if students.length ≤ 1 then some (alloc st students)
      else
        match students[students.length / 2]? with
        | none => none
        | some pivotRec =>
          match getAttr pivotRec a with
          | none => none
          | some pivot =>
            let al := alloc st []
            let ae := alloc al.1 []
            let ag := alloc ae.1 []
            match partLoop a pivot al.2 ae.2 ag.2 students ag.1 with
            | none => none
            | some st4 =>
              if reverse then
                match quicksortH a reverse fuel st4 ag.2 with
                | none => none
                | some (st5, sgp) =>
                  match quicksortH a reverse fuel st5 al.2 with
                  | none => none
                  | some (st6, slp) =>
                    match readL st6 sgp, readL st6 ae.2, readL st6 slp with
                    | some sg, some e, some sl => some (alloc st6 (sg ++ e ++ sl))
                    | _, _, _ => none
              else
                match quicksortH a reverse fuel st4 al.2 with
                | none => none
                | some (st5, slp) =>
                  match quicksortH a reverse fuel st5 ag.2 with
                  | none => none
                  | some (st6, sgp) =>
                    match readL st6 slp, readL st6 ae.2, readL st6 sgp with
                    | some sl, some e, some sg => some (alloc st6 (sl ++ e ++ sg))
                    | _, _, _ => none

/-! Concrete records used in scenario theorems, counterexamples and
witnesses.  The student_id records model a database whose student_id
column holds the JSON values "10", 10 and 2 (a string mixed with
numbers); the grade records model the spec scenario with final_grade
70.0 and 95.5 (the rational 191/2). -/

def rId10s : Record := [("student_id", Value.str "10")]

def rId10n : Record := [("student_id", Value.num 10)]

def rId2n : Record := [("student_id", Value.num 2)]

def rS3 : Record := [("student_id", Value.str "S3"), ("final_grade", Value.num 70)]

def rS1 : Record := [("student_id", Value.str "S1"),
  ("final_grade", Value.num (Rat.mk' 191 2))]

def rS2 : Record := [("student_id", Value.str "S2"),
  ("final_grade", Value.num (Rat.mk' 191 2))]

def rSemFall : Record := [("semester", Value.str "Fall2024")]

def rSemfall : Record := [("semester", Value.str "fall2024")]

/-! Basic characterizations of the three-way comparisons. -/

/-- Every Ordering is one of the three constructors. -/
theorem ordering_cases (o : Ordering) :
    o = Ordering.lt ∨ o = Ordering.eq ∨ o = Ordering.gt := by
  cases o <;> simp

theorem ord3_lt_iff {K : Type} [LinearOrder K] {x y : K} :
    ord3 x y = Ordering.lt ↔ x < y := by
  unfold ord3
  split
  next h => simp [h]
  next h =>
    split
    next h2 => simp [h]
    next h2 => simp [h]

theorem ord3_eq_iff {K : Type} [LinearOrder K] {x y : K} :
    ord3 x y = Ordering.eq ↔ x = y := by
  unfold ord3
  split
  next h => simp [ne_of_lt h]
  next h =>
    split
    next h2 => simp [Ne.symm (ne_of_lt h2)]
    next h2 =>
      have hxy : x = y := le_antisymm (le_of_not_lt h2) (le_of_not_lt h)
      simp [hxy]

theorem ord3_gt_iff {K : Type} [LinearOrder K] {x y : K} :
    ord3 x y = Ordering.gt ↔ y < x := by
  unfold ord3
  split
  next h => simp [not_lt_of_gt h]
  next h =>
    split
    next h2 => simp [h2]
    next h2 => simp [h2]

theorem ord3_self {K : Type} [LinearOrder K] (x : K) : ord3 x x = Ordering.eq :=
  ord3_eq_iff.mpr rfl

/-- Character comparison in lexOrd3 agrees with the order on Char. -/
theorem charNat_lt_iff {c d : Char} : c.toNat < d.toNat ↔ c < d := Iff.rfl

theorem lexOrd3_eq_iff : ∀ {s t : List Char}, lexOrd3 s t = Ordering.eq ↔ s = t
  | [], [] => by simp [lexOrd3]
  | [], _ :: _ => by simp [lexOrd3]
  | _ :: _, [] => by simp [lexOrd3]
  | c :: s, d :: t => by
    unfold lexOrd3
    split
    next h =>
      refine iff_of_false (by simp) (fun he => ?_)
      injection he with h1 _
      exact absurd (h1 ▸ h) (lt_irrefl _)
    next h =>
      split
      next h2 =>
        refine iff_of_false (by simp) (fun he => ?_)
        injection he with h1 _
        exact absurd (h1 ▸ h2) (lt_irrefl _)
      next h2 =>
        have hc : c = d := Char.ext (UInt32.ext (Nat.le_antisymm
          (Nat.le_of_not_lt h2) (Nat.le_of_not_lt h)))
        subst hc
        rw [lexOrd3_eq_iff]
        simp

theorem lexOrd3_lt_iff : ∀ {s t : List Char}, lexOrd3 s t = Ordering.lt ↔ s < t
  | [], [] => by
    simp only [lexOrd3]
    exact iff_of_false (by simp) (lt_irrefl _)
  | [], c :: t => iff_of_true rfl (List.nil_lt_cons c t)
  | c :: s, [] => by
    simp only [lexOrd3]
    constructor
    · intro h; cases h
    · intro h; cases h
  | c :: s, d :: t => by
    unfold lexOrd3
    split
    next h => exact iff_of_true rfl (List.Lex.rel (charNat_lt_iff.mp h))
    next h =>
      split
      next h2 =>
        refine iff_of_false (by simp) (fun hR => ?_)
        exact absurd hR (lt_asymm (List.Lex.rel (charNat_lt_iff.mp h2)))
      next h2 =>
        have hc : c = d := Char.ext (UInt32.ext (Nat.le_antisymm
          (Nat.le_of_not_lt h2) (Nat.le_of_not_lt h)))
        subst hc
        rw [lexOrd3_lt_iff]
        exact List.Lex.cons_iff.symm

theorem lexOrd3_gt_iff {s t : List Char} : lexOrd3 s t = Ordering.gt ↔ t < s := by
  rcases lt_trichotomy s t with h | h | h
  · rw [lexOrd3_lt_iff.mpr h]
    simp [not_lt_of_gt h]
  · subst h
    rw [lexOrd3_eq_iff.mpr rfl]
    simp [lt_irrefl]
  · constructor
    · intro _; exact h
    · intro _
      rcases ordering_cases (lexOrd3 s t) with ho | ho | ho
      · exact absurd (lexOrd3_lt_iff.mp ho) (not_lt_of_gt h)
      · exact absurd (lexOrd3_eq_iff.mp ho) (ne_of_gt h)
      · exact ho

theorem lexOrd3_self (s : List Char) : lexOrd3 s s = Ordering.eq :=
  lexOrd3_eq_iff.mpr rfl

/-! Characterizations of the shared comparison rule. -/

theorem cmpVal_num_num (p q : Rat) : cmpVal (.num p) (.num q) = ord3 p q := rfl

/-- Whenever at least one side is a string the rule compares the
lower-cased texts. -/
theorem cmpVal_strlike {v w : Value} (h : v.isNum = false ∨ w.isNum = false) :
    cmpVal v w = lexOrd3 (strKeyOf v) (strKeyOf w) := by
  cases v <;> cases w <;> first
    | rfl
    | simp [Value.isNum] at h

theorem cmpVal_self (v : Value) : cmpVal v v = Ordering.eq := by
  cases v with
  | str s => exact lexOrd3_self _
  | num q => exact ord3_self q

/-! Key compatibility: derived facts and the homogeneous-kind
instantiations. -/

theorem isLt_iff {o : Ordering} : isLt o = true ↔ o = Ordering.lt := by
  cases o <;> simp [isLt]

theorem isEqO_iff {o : Ordering} : isEqO o = true ↔ o = Ordering.eq := by
  cases o <;> simp [isEqO]

theorem isGt_iff {o : Ordering} : isGt o = true ↔ o = Ordering.gt := by
  cases o <;> simp [isGt]

theorem keyCompat_gt_iff {K : Type} [LinearOrder K] {κ : Record → K}
    {a : String} {ss : List Record} (hk : KeyCompat κ a ss)
    {r r' : Record} (hr : r ∈ ss) (hr' : r' ∈ ss) :
    ordAt a r r' = Ordering.gt ↔ κ r' < κ r := by
  obtain ⟨hlt, heq⟩ := hk r hr r' hr'
  constructor
  · intro hg
    rcases lt_trichotomy (κ r) (κ r') with h | h | h
    · rw [hlt.mpr h] at hg; cases hg
    · rw [heq.mpr h] at hg; cases hg
    · exact h
  · intro h
    rcases ordering_cases (ordAt a r r') with ho | ho | ho
    · exact absurd (hlt.mp ho) (not_lt_of_gt h)
    · exact absurd (heq.mp ho) (Ne.symm (ne_of_lt h))
    · exact ho

theorem valCompat_gt_iff {K : Type} [LinearOrder K] {κ : Record → K}
    {a : String} {v : Value} {kv : K} {ss : List Record}
    (hk : ValCompat κ a v kv ss) {r : Record} (hr : r ∈ ss) :
    cmpVal (attrOf a r) v = Ordering.gt ↔ kv < κ r := by
  obtain ⟨hlt, heq⟩ := hk r hr
  constructor
  · intro hg
    rcases lt_trichotomy (κ r) kv with h | h | h
    · rw [hlt.mpr h] at hg; cases hg
    · rw [heq.mpr h] at hg; cases hg
    · exact h
  · intro h
    rcases ordering_cases (cmpVal (attrOf a r) v) with ho | ho | ho
    · exact absurd (hlt.mp ho) (not_lt_of_gt h)
    · exact absurd (heq.mp ho) (Ne.symm (ne_of_lt h))
    · exact ho

theorem numAttr_iff {a : String} {r : Record} :
    numAttr a r = true ↔ ∃ q, getAttr r a = some (Value.num q) := by
  unfold numAttr
  split
  next q hq => simp [hq]
  next h =>
    constructor
    · intro hf; cases hf
    · rintro ⟨q, hq⟩; exact absurd hq (h q)

theorem strAttr_iff {a : String} {r : Record} :
    strAttr a r = true ↔ ∃ s, getAttr r a = some (Value.str s) := by
  unfold strAttr
  split
  next s hs => simp [hs]
  next h =>
    constructor
    · intro hf; cases hf
    · rintro ⟨s, hs⟩; exact absurd hs (h s)

/-- Comparison of a string value with anything goes through the
lower-cased texts. -/
theorem cmpVal_str_left (s : String) (w : Value) :
    cmpVal (Value.str s) w = lexOrd3 (strKeyOf (Value.str s)) (strKeyOf w) := by
  cases w <;> rfl

theorem keyCompat_of_allNum {a : String} {ss : List Record}
    (h : allNumA a ss) : KeyCompat (fun r => ratOf (attrOf a r)) a ss := by
  intro r hr r' hr'
  obtain ⟨p, hp⟩ := numAttr_iff.mp (h r hr)
  obtain ⟨q, hq⟩ := numAttr_iff.mp (h r' hr')
  simp only [ordAt, attrOf, hp, hq, Option.getD_some, cmpVal_num_num, ratOf]
  exact ⟨ord3_lt_iff, ord3_eq_iff⟩

theorem keyCompat_of_allStr {a : String} {ss : List Record}
    (h : allStrA a ss) : KeyCompat (fun r => strKeyOf (attrOf a r)) a ss := by
  intro r hr r' hr'
  obtain ⟨s, hs⟩ := strAttr_iff.mp (h r hr)
  obtain ⟨t, ht⟩ := strAttr_iff.mp (h r' hr')
  simp only [ordAt, attrOf, hs, ht, Option.getD_some, cmpVal_str_left]
  exact ⟨lexOrd3_lt_iff, lexOrd3_eq_iff⟩

theorem valCompat_of_allNum {a : String} {ss : List Record} {q : Rat}
    (h : allNumA a ss) :
    ValCompat (fun r => ratOf (attrOf a r)) a (Value.num q) q ss := by
  intro r hr
  obtain ⟨p, hp⟩ := numAttr_iff.mp (h r hr)
  simp only [attrOf, hp, Option.getD_some, cmpVal_num_num, ratOf]
  exact ⟨ord3_lt_iff, ord3_eq_iff⟩

theorem valCompat_of_allStr {a : String} {ss : List Record} {v : Value}
    (h : allStrA a ss) :
    ValCompat (fun r => strKeyOf (attrOf a r)) a v (strKeyOf v) ss := by
  intro r hr
  obtain ⟨s, hs⟩ := strAttr_iff.mp (h r hr)
  simp only [attrOf, hs, Option.getD_some, cmpVal_str_left]
  exact ⟨lexOrd3_lt_iff, lexOrd3_eq_iff⟩

/-! Theory of the single partitioning pass. -/

theorem part3_some_of_allHave {a : String} {pivot : Value} :
    ∀ {ss : List Record}, allHave a ss →
      ∃ leg, part3 a pivot ss = some leg
  | [], _ => ⟨([], [], []), rfl⟩
  | r :: rest, h => by
    have hr : hasAttr a r = true := h r (List.mem_cons_self r rest)
    obtain ⟨v, hv⟩ := Option.isSome_iff_exists.mp hr
    obtain ⟨⟨l, e, g⟩, hrest⟩ :=
      @part3_some_of_allHave a pivot rest
        (fun x hx => h x (List.mem_cons_of_mem r hx))
    cases hcmp : cmpVal v pivot with
    | lt => exact ⟨(r :: l, e, g), by simp only [part3, hv, hrest, hcmp]⟩
    | eq => exact ⟨(l, r :: e, g), by simp only [part3, hv, hrest, hcmp]⟩
    | gt => exact ⟨(l, e, r :: g), by simp only [part3, hv, hrest, hcmp]⟩

theorem allHave_of_part3_some {a : String} {pivot : Value} :
    ∀ {ss : List Record} {leg},
      part3 a pivot ss = some leg → allHave a ss
  | [], _, _ => by intro r hr; cases hr
  | r :: rest, leg, h => by
    simp only [part3] at h
    cases hv : getAttr r a with
    | none => rw [hv] at h; cases h
    | some v =>
      rw [hv] at h
      cases hrest : part3 a pivot rest with
      | none => rw [hrest] at h; cases h
      | some leg' =>
        have ih := allHave_of_part3_some hrest
        intro x hx
        rcases List.mem_cons.mp hx with rfl | hx'
        · simp [hasAttr, hv]
        · exact ih x hx'

theorem pclass_eq_of_getAttr {a : String} {pivot v : Value} {r : Record}
    (h : getAttr r a = some v) : pclass a pivot r = cmpVal v pivot := by
  unfold pclass attrOf
  rw [h]
  rfl

theorem part3_eq_filters {a : String} {pivot : Value} :
    ∀ {ss : List Record} {l e g : List Record},
      part3 a pivot ss = some (l, e, g) →
        l = ss.filter (fun r => isLt (pclass a pivot r)) ∧
        e = ss.filter (fun r => isEqO (pclass a pivot r)) ∧
        g = ss.filter (fun r => isGt (pclass a pivot r))
  | [], l, e, g, h => by
    simp only [part3, Option.some_inj, Prod.mk.injEq] at h
    obtain ⟨h1, h2, h3⟩ := h
    subst h1; subst h2; subst h3
    simp
  | r :: rest, l, e, g, h => by
    simp only [part3] at h
    split at h
    next => cases h
    next v hv =>
      split at h
      next => cases h
      next less equal greater hrest =>
        obtain ⟨ih1, ih2, ih3⟩ := part3_eq_filters hrest
        have hc := @pclass_eq_of_getAttr a pivot v r hv
        split at h
        next hcmp =>
          injection h with h'
          injection h' with h1 h'
          injection h' with h2 h3
          subst h1; subst h2; subst h3
          simp [List.filter_cons, hc, hcmp, ih1.symm, ih2.symm, ih3.symm,
            show isLt Ordering.lt = true from rfl,
            show isEqO Ordering.lt = false from rfl,
            show isGt Ordering.lt = false from rfl]
        next hcmp =>
          injection h with h'
          injection h' with h1 h'
          injection h' with h2 h3
          subst h1; subst h2; subst h3
          simp [List.filter_cons, hc, hcmp, ih1.symm, ih2.symm, ih3.symm,
            show isLt Ordering.eq = false from rfl,
            show isEqO Ordering.eq = true from rfl,
            show isGt Ordering.eq = false from rfl]
        next hcmp =>
          injection h with h'
          injection h' with h1 h'
          injection h' with h2 h3
          subst h1; subst h2; subst h3
          simp [List.filter_cons, hc, hcmp, ih1.symm, ih2.symm, ih3.symm,
            show isLt Ordering.gt = false from rfl,
            show isEqO Ordering.gt = false from rfl,
            show isGt Ordering.gt = true from rfl]

/-- The three groups together are a permutation of the input. -/
theorem part3_perm {a : String} {pivot : Value} :
    ∀ {ss l e g : List Record}, part3 a pivot ss = some (l, e, g) →
      (l ++ e ++ g).Perm ss
  | [], l, e, g, h => by
    simp only [part3, Option.some_inj, Prod.mk.injEq] at h
    obtain ⟨h1, h2, h3⟩ := h
    subst h1; subst h2; subst h3
    exact List.Perm.refl _
  | r :: rest, l, e, g, h => by
    simp only [part3] at h
    split at h
    next => cases h
    next v hv =>
      split at h
      next => cases h
      next less equal greater hrest =>
        split at h
        next hcmp =>
          injection h with h'
          injection h' with h1 h'
          injection h' with h2 h3
          subst h1; subst h2; subst h3
          exact (part3_perm hrest).cons r
        next hcmp =>
          injection h with h'
          injection h' with h1 h'
          injection h' with h2 h3
          subst h1; subst h2; subst h3
          have ihp := part3_perm hrest
          rw [List.append_assoc] at ihp
          rw [List.append_assoc, List.cons_append]
          exact List.Perm.trans List.perm_middle (ihp.cons r)
        next hcmp =>
          injection h with h'
          injection h' with h1 h'
          injection h' with h2 h3
          subst h1; subst h2; subst h3
          refine List.Perm.trans List.perm_middle ?_
          exact List.Perm.cons r (part3_perm hrest)

theorem part3_length {a : String} {pivot : Value} {ss l e g : List Record}
    (h : part3 a pivot ss = some (l, e, g)) :
    l.length + e.length + g.length = ss.length := by
  have hp := (part3_perm h).length_eq
  simp only [List.length_append] at hp
  omega

theorem part3_mem_equal {a : String} {pivot : Value} {ss l e g : List Record}
    {r0 : Record} (h : part3 a pivot ss = some (l, e, g))
    (hr0 : r0 ∈ ss) (hp : getAttr r0 a = some pivot) : r0 ∈ e := by
  obtain ⟨-, he, -⟩ := part3_eq_filters h
  subst he
  refine List.mem_filter.mpr ⟨hr0, ?_⟩
  rw [pclass_eq_of_getAttr hp, cmpVal_self]
  rfl

theorem part3_length_lt {a : String} {pivot : Value} {ss l e g : List Record}
    {r0 : Record} (h : part3 a pivot ss = some (l, e, g))
    (hr0 : r0 ∈ ss) (hp : getAttr r0 a = some pivot) :
    l.length < ss.length ∧ g.length < ss.length := by
  have hlen := part3_length h
  have hmem := part3_mem_equal h hr0 hp
  have hepos : 0 < e.length := List.length_pos_of_mem hmem
  omega

/-- Reversing a three-part concatenation is a permutation. -/
theorem perm_rev3 {α : Type} (x y z : List α) :
    (x ++ y ++ z).Perm (z ++ y ++ x) := by
  refine List.Perm.trans List.perm_append_comm ?_
  refine List.Perm.trans (List.Perm.append_left z List.perm_append_comm) ?_
  rw [List.append_assoc]

/-- Base case of quicksortF: a list of length at most one comes back
unchanged, for any fuel. -/
theorem quicksortF_short {a : String} {reverse : Bool} (fuel : Nat)
    (ss : List Record) (h : ss.length <= 1) :
    quicksortF a reverse fuel ss = some ss := by
  cases fuel with
  | zero => rw [quicksortF, if_pos h]
  | succ fuel => rw [quicksortF, if_pos h]

/-- Master run lemma: with every record carrying the attribute and
enough fuel, quicksortF succeeds and returns a permutation of its
input. -/
theorem quicksortF_perm {a : String} {reverse : Bool} :
    ∀ (fuel : Nat) (ss : List Record), ss.length ≤ fuel → allHave a ss →
      ∃ out, quicksortF a reverse fuel ss = some out ∧ out.Perm ss := by
  intro fuel
  induction fuel with
  | zero =>
    intro ss hlen _
    have hnil : ss = [] := List.length_eq_zero.mp (Nat.le_zero.mp hlen)
    subst hnil
    exact ⟨[], quicksortF_short 0 [] (by simp), List.Perm.refl []⟩
  | succ fuel ih =>
    intro ss hlen hall
    by_cases hb : ss.length ≤ 1
    · exact ⟨ss, quicksortF_short _ ss hb, List.Perm.refl ss⟩
    · have hmid : ss.length / 2 < ss.length := by omega
      have hpr : ss[ss.length / 2]? = some (ss.get ⟨ss.length / 2, hmid⟩) :=
        List.getElem?_eq_getElem hmid
      have hr0mem : ss.get ⟨ss.length / 2, hmid⟩ ∈ ss := List.get_mem ss _ _
      obtain ⟨pivot, hpv⟩ :=
        Option.isSome_iff_exists.mp (hall _ hr0mem)
      obtain ⟨⟨l, e, g⟩, hpart⟩ :=
        @part3_some_of_allHave a pivot _ hall
      obtain ⟨hl, he, hg⟩ := part3_eq_filters hpart
      have hlt := part3_length_lt hpart hr0mem hpv
      have halll : allHave a l := fun r hr =>
        hall r (List.mem_filter.mp (hl ▸ hr)).1
      have hallg : allHave a g := fun r hr =>
        hall r (List.mem_filter.mp (hg ▸ hr)).1
      obtain ⟨sl, hsl, hslp⟩ := ih l (by omega) halll
      obtain ⟨sg, hsg, hsgp⟩ := ih g (by omega) hallg
      have hperm3 := part3_perm hpart
      refine ⟨if reverse then sg ++ e ++ sl else sl ++ e ++ sg, ?_, ?_⟩
      · rw [quicksortF, if_neg hb]
        simp only [hpr, hpv, hpart, hsl, hsg]
        cases reverse <;> rfl
      · have hfwd : (sl ++ e ++ sg).Perm ss :=
          List.Perm.trans ((hslp.append (List.Perm.refl e)).append hsgp) hperm3
        have hbwd : (sg ++ e ++ sl).Perm ss :=
          List.Perm.trans (perm_rev3 sg e sl) hfwd
        cases reverse with
        | true => simpa using hbwd
        | false => simpa using hfwd

/-- The fuel argument is irrelevant as long as it is at least the list
length: quicksortF computes the same result. -/
theorem quicksortF_fuel_irrel {a : String} {reverse : Bool} :
    ∀ (fuel fuel' : Nat) (ss : List Record), ss.length ≤ fuel →
      ss.length ≤ fuel' →
      quicksortF a reverse fuel ss = quicksortF a reverse fuel' ss := by
  intro fuel
  induction fuel with
  | zero =>
    intro fuel' ss hlen _
    have hnil : ss = [] := List.length_eq_zero.mp (Nat.le_zero.mp hlen)
    subst hnil
    rw [quicksortF_short 0 [] (by simp), quicksortF_short fuel' [] (by simp)]
  | succ fuel ih =>
    intro fuel' ss hlen hlen'
    by_cases hb : ss.length ≤ 1
    · rw [quicksortF_short _ ss hb, quicksortF_short fuel' ss hb]
    · cases fuel' with
      | zero => omega
      | succ fuel' =>
        rw [quicksortF, quicksortF, if_neg hb, if_neg hb]
        have hmid : ss.length / 2 < ss.length := by omega
        have hpr : ss[ss.length / 2]? = some (ss.get ⟨ss.length / 2, hmid⟩) :=
          List.getElem?_eq_getElem hmid
        rw [hpr]
        have hr0mem : ss.get ⟨ss.length / 2, hmid⟩ ∈ ss :=
          List.get_mem ss _ _
        cases hpv : getAttr (ss.get ⟨ss.length / 2, hmid⟩) a with
        | none => simp only [hpv]
        | some pivot =>
          simp only [hpv]
          cases hpart : part3 a pivot ss with
          | none => simp only [hpart]
          | some leg =>
            obtain ⟨l, e, g⟩ := leg
            simp only [hpart]
            have hlt := part3_length_lt hpart hr0mem hpv
            rw [ih fuel' l (by omega) (by omega), ih fuel' g (by omega) (by omega)]

/-! Sortedness of the quicksort output under key-compatible
comparisons. -/

theorem attrOf_eq {a : String} {r : Record} {v : Value}
    (h : getAttr r a = some v) : attrOf a r = v := by
  unfold attrOf
  rw [h]
  rfl

/-- A chain relation can be weakened pointwise on the members of the
list. -/
theorem chain'_imp_of_mem {α : Type} {R S : α → α → Prop} :
    ∀ {l : List α}, (∀ x ∈ l, ∀ y ∈ l, R x y → S x y) → l.Chain' R →
      l.Chain' S
  | [], _, _ => List.chain'_nil
  | [x], _, _ => List.chain'_singleton x
  | x :: y :: rest, himp, hch => by
    rw [List.chain'_cons] at hch ⊢
    refine ⟨himp x (List.mem_cons_self _ _) y
      (List.mem_cons_of_mem x (List.mem_cons_self _ _)) hch.1, ?_⟩
    exact chain'_imp_of_mem
      (fun u hu w hw hR => himp u (List.mem_cons_of_mem x hu)
        w (List.mem_cons_of_mem x hw) hR) hch.2

/-- Assemble a chain over a three-part concatenation from chains on the
parts and pairwise bounds across parts. -/
theorem chain'_three {α : Type} {R : α → α → Prop} {A E B : List α}
    (hA : A.Chain' R) (hE : E.Chain' R) (hB : B.Chain' R)
    (hAE : ∀ x ∈ A, ∀ y ∈ E, R x y)
    (hAB : ∀ x ∈ A, ∀ y ∈ B, R x y)
    (hEB : ∀ x ∈ E, ∀ y ∈ B, R x y) :
    (A ++ E ++ B).Chain' R := by
  rw [List.append_assoc, List.chain'_append]
  refine ⟨hA, ?_, ?_⟩
  · rw [List.chain'_append]
    refine ⟨hE, hB, fun x hx y hy =>
      hEB x (List.mem_of_mem_getLast? hx) y (List.mem_of_mem_head? hy)⟩
  · intro x hx y hy
    have hx' := List.mem_of_mem_getLast? hx
    rcases List.mem_append.mp (List.mem_of_mem_head? hy) with hyE | hyB
    · exact hAE x hx' y hyE
    · exact hAB x hx' y hyB

theorem quicksortF_sorted_keys {K : Type} [LinearOrder K] {κ : Record → K}
    {a : String} {reverse : Bool} :
    ∀ (fuel : Nat) (ss : List Record), ss.length ≤ fuel → allHave a ss →
      KeyCompat κ a ss →
      ∀ out, quicksortF a reverse fuel ss = some out →
        List.Chain' (fun x y => if reverse then κ y ≤ κ x else κ x ≤ κ y) out := by
  intro fuel
  induction fuel with
  | zero =>
    intro ss hlen _ _ out hout
    have hnil : ss = [] := List.length_eq_zero.mp (Nat.le_zero.mp hlen)
    subst hnil
    rw [quicksortF_short 0 [] (by simp)] at hout
    injection hout with hout
    subst hout
    exact List.chain'_nil
  | succ fuel ih =>
    intro ss hlen hall hkey out hout
    by_cases hb : ss.length ≤ 1
    · rw [quicksortF_short _ ss hb] at hout
      injection hout with hout
      subst hout
      cases ss with
      | nil => exact List.chain'_nil
      | cons x rest =>
        cases rest with
        | nil => exact List.chain'_singleton x
        | cons y rest2 => simp at hb
    · have hmid : ss.length / 2 < ss.length := by omega
      have hpr : ss[ss.length / 2]? = some (ss.get ⟨ss.length / 2, hmid⟩) :=
        List.getElem?_eq_getElem hmid
      have hr0mem : ss.get ⟨ss.length / 2, hmid⟩ ∈ ss := List.get_mem ss _ _
      obtain ⟨pivot, hpv⟩ := Option.isSome_iff_exists.mp (hall _ hr0mem)
      obtain ⟨⟨l, e, g⟩, hpart⟩ :=
        @part3_some_of_allHave a pivot _ hall
      obtain ⟨hl, he, hg⟩ := part3_eq_filters hpart
      have hlt := part3_length_lt hpart hr0mem hpv
      have halll : allHave a l := fun r hr =>
        hall r (List.mem_filter.mp (hl ▸ hr)).1
      have hallg : allHave a g := fun r hr =>
        hall r (List.mem_filter.mp (hg ▸ hr)).1
      have hsubl : ∀ r ∈ l, r ∈ ss := fun r hr =>
        (List.mem_filter.mp (hl ▸ hr)).1
      have hsube : ∀ r ∈ e, r ∈ ss := fun r hr =>
        (List.mem_filter.mp (he ▸ hr)).1
      have hsubg : ∀ r ∈ g, r ∈ ss := fun r hr =>
        (List.mem_filter.mp (hg ▸ hr)).1
      have hkeyl : KeyCompat κ a l := fun r hr r' hr' =>
        hkey r (hsubl r hr) r' (hsubl r' hr')
      have hkeyg : KeyCompat κ a g := fun r hr r' hr' =>
        hkey r (hsubg r hr) r' (hsubg r' hr')
      obtain ⟨sl, hsl, hslp⟩ := quicksortF_perm fuel l (by omega) halll
      obtain ⟨sg, hsg, hsgp⟩ := quicksortF_perm fuel g (by omega) hallg
      have hchl := ih l (by omega) halll hkeyl sl hsl
      have hchg := ih g (by omega) hallg hkeyg sg hsg
      have hκ0 : attrOf a (ss.get ⟨ss.length / 2, hmid⟩) = pivot := attrOf_eq hpv
      have hpc : ∀ x : Record,
          pclass a pivot x = ordAt a x (ss.get ⟨ss.length / 2, hmid⟩) := by
        intro x
        unfold pclass ordAt
        rw [hκ0]
      have hmeml : ∀ x ∈ l, κ x < κ (ss.get ⟨ss.length / 2, hmid⟩) := by
        intro x hx
        have := (List.mem_filter.mp (hl ▸ hx)).2
        rw [isLt_iff, hpc] at this
        exact (hkey x (hsubl x hx) _ hr0mem).1.mp this
      have hmeme : ∀ x ∈ e, κ x = κ (ss.get ⟨ss.length / 2, hmid⟩) := by
        intro x hx
        have := (List.mem_filter.mp (he ▸ hx)).2
        rw [isEqO_iff, hpc] at this
        exact (hkey x (hsube x hx) _ hr0mem).2.mp this
      have hmemg : ∀ x ∈ g, κ (ss.get ⟨ss.length / 2, hmid⟩) < κ x := by
        intro x hx
        have := (List.mem_filter.mp (hg ▸ hx)).2
        rw [isGt_iff, hpc] at this
        exact (keyCompat_gt_iff hkey (hsubg x hx) hr0mem).mp this
      have hmemsl : ∀ x ∈ sl, κ x < κ (ss.get ⟨ss.length / 2, hmid⟩) :=
        fun x hx => hmeml x (hslp.mem_iff.mp hx)
      have hmemsg : ∀ x ∈ sg, κ (ss.get ⟨ss.length / 2, hmid⟩) < κ x :=
        fun x hx => hmemg x (hsgp.mem_iff.mp hx)
      rw [quicksortF, if_neg hb] at hout
      simp only [hpr, hpv, hpart, hsl, hsg] at hout
      have hche : List.Chain' (fun x y : Record =>
          if reverse then κ y ≤ κ x else κ x ≤ κ y) e := by
        refine List.Pairwise.chain' (List.pairwise_of_forall_mem_list ?_)
        intro x hx y hy
        have hx' := hmeme x hx
        have hy' := hmeme y hy
        cases reverse <;> simp [hx', hy']
      cases reverse with
      | false =>
        simp only [if_false, Bool.false_eq_true] at hout ⊢
        injection hout with hout
        subst hout
        refine chain'_three hchl hche hchg ?_ ?_ ?_
        · intro x hx y hy
          exact le_of_lt (lt_of_lt_of_le (hmemsl x hx) (le_of_eq (hmeme y hy).symm))
        · intro x hx y hy
          exact le_of_lt (lt_trans (hmemsl x hx) (hmemsg y hy))
        · intro x hx y hy
          exact le_of_lt (lt_of_le_of_lt (le_of_eq (hmeme x hx)) (hmemsg y hy))
      | true =>
        simp only [if_true] at hout ⊢
        injection hout with hout
        subst hout
        refine chain'_three hchg hche hchl ?_ ?_ ?_
        · intro x hx y hy
          exact le_of_lt (lt_of_le_of_lt (le_of_eq (hmeme y hy)) (hmemsg x hx))
        · intro x hx y hy
          exact le_of_lt (lt_trans (hmemsl y hy) (hmemsg x hx))
        · intro x hx y hy
          exact le_of_lt (lt_of_lt_of_le (hmemsl y hy) (le_of_eq (hmeme x hx).symm))

/-! Claim C1: permutation and adjacent ordering of the quicksort
output. -/

/-- C1 (amended).  For every input whose records all carry the
attribute, quicksort succeeds and its output is a permutation of the
input; when additionally the attribute values are homogeneous in kind
(all numeric or all strings), every adjacent pair of the output is
ordered: the earlier record does not compare greater (ascending), or
does not compare less (descending), under the comparison rule.  The
homogeneity hypothesis is forced by the counterexample
quicksort_adjacent_order_mixed_counterexample. -/
theorem quicksort_perm_and_ordered_homog (ss : List Record) (a : String)
    (reverse : Bool) (hall : allHave a ss) :
    ∃ out, quicksort ss a reverse = some out ∧ out.Perm ss ∧
      (homogA a ss →
        List.Chain' (fun x y =>
          if reverse then descAdj a x y else ascAdj a x y) out) := by
  obtain ⟨out, hout, hperm⟩ := quicksortF_perm ss.length ss le_rfl hall
  refine ⟨out, hout, hperm, ?_⟩
  intro hhom
  have hmem : ∀ x ∈ out, x ∈ ss := fun x hx => hperm.mem_iff.mp hx
  rcases hhom with hnum | hstr
  · have hkey := keyCompat_of_allNum hnum
    have hch := quicksortF_sorted_keys ss.length ss le_rfl hall hkey out hout
    refine chain'_imp_of_mem ?_ hch
    intro x hx y hy hR
    cases reverse with
    | false =>
      simp only [Bool.false_eq_true, if_false] at hR ⊢
      intro hgt
      exact absurd hR (not_le_of_lt ((keyCompat_gt_iff hkey (hmem x hx) (hmem y hy)).mp hgt))
    | true =>
      simp only [if_true] at hR ⊢
      intro hlt
      exact absurd hR
        (not_le_of_lt ((hkey x (hmem x hx) y (hmem y hy)).1.mp hlt))
  · have hkey := keyCompat_of_allStr hstr
    have hch := quicksortF_sorted_keys ss.length ss le_rfl hall hkey out hout
    refine chain'_imp_of_mem ?_ hch
    intro x hx y hy hR
    cases reverse with
    | false =>
      simp only [Bool.false_eq_true, if_false] at hR ⊢
      intro hgt
      exact absurd hR (not_le_of_lt ((keyCompat_gt_iff hkey (hmem x hx) (hmem y hy)).mp hgt))
    | true =>
      simp only [if_true] at hR ⊢
      intro hlt
      exact absurd hR
        (not_le_of_lt ((hkey x (hmem x hx) y (hmem y hy)).1.mp hlt))

/-- C1 counterexample.  With mixed kinds in one attribute the claim as
stated fails: sorting the student_id values "10", 10, 2 ascending gives
the output 2, "10", 10 whose first adjacent pair compares greater
(2 against "10" is a textual comparison of "2" with "10").  Every record
carries the attribute, yet the output is not adjacently ordered. -/
theorem quicksort_adjacent_order_mixed_counterexample :
    allHave "student_id" [rId10s, rId10n, rId2n] ∧
    quicksort [rId10s, rId10n, rId2n] "student_id" false =
      some [rId2n, rId10s, rId10n] ∧
    ¬ List.Chain' (ascAdj "student_id") [rId2n, rId10s, rId10n] := by
  refine ⟨by decide, by decide, ?_⟩
  intro hch
  have := (List.chain'_cons.mp hch).1
  exact this (by decide)

/-- C1 witness: the amended theorem applied to the grade scenario
records. -/
theorem quicksort_perm_and_ordered_homog_witness :
    ∃ out, quicksort [rS3, rS1, rS2] "final_grade" false = some out ∧
      out.Perm [rS3, rS1, rS2] ∧
      (homogA "final_grade" [rS3, rS1, rS2] →
        List.Chain' (fun x y =>
          if false then descAdj "final_grade" x y
          else ascAdj "final_grade" x y) out) :=
  quicksort_perm_and_ordered_homog [rS3, rS1, rS2] "final_grade" false
    (by decide)

/-! Claim C9: termination of quicksort and strict shrinking of the
recursive partitions. -/

/-- C9.  With every record carrying the chosen attribute, quicksort
terminates normally (in the fuel model: the list-length fuel of the
wrapper never runs out and no exception occurs, so the result is some);
the reason is structural: the pivot element always lands in the equal
partition, hence the less and greater partitions passed to the recursive
calls are strictly shorter than the current sequence. -/
theorem quicksort_total_of_allHave (ss : List Record) (a : String)
    (reverse : Bool) (hall : allHave a ss) :
    (quicksort ss a reverse).isSome = true ∧
    (∀ (h2 : 2 ≤ ss.length) (pivot : Value) (l e g : List Record),
      getAttr (ss.get ⟨ss.length / 2, by omega⟩) a = some pivot →
      part3 a pivot ss = some (l, e, g) →
      ss.get ⟨ss.length / 2, by omega⟩ ∈ e ∧
      l.length < ss.length ∧ g.length < ss.length) := by
  constructor
  · obtain ⟨out, hout, -⟩ := quicksortF_perm ss.length ss le_rfl hall
    rw [quicksort, hout]
    rfl
  · intro h2 pivot l e g hpv hpart
    have hmem : ss.get ⟨ss.length / 2, by omega⟩ ∈ ss := List.get_mem ss _ _
    exact ⟨part3_mem_equal hpart hmem hpv,
      (part3_length_lt hpart hmem hpv).1,
      (part3_length_lt hpart hmem hpv).2⟩

/-- C9 witness: the termination theorem applied to the grade scenario
records. -/
theorem quicksort_total_of_allHave_witness :
    (quicksort [rS3, rS1, rS2] "final_grade" false).isSome = true ∧
    (∀ (h2 : 2 ≤ ([rS3, rS1, rS2] : List Record).length) (pivot : Value)
      (l e g : List Record),
      getAttr (([rS3, rS1, rS2] : List Record).get
        ⟨([rS3, rS1, rS2] : List Record).length / 2, by omega⟩) "final_grade" =
        some pivot →
      part3 "final_grade" pivot [rS3, rS1, rS2] = some (l, e, g) →
      ([rS3, rS1, rS2] : List Record).get
        ⟨([rS3, rS1, rS2] : List Record).length / 2, by omega⟩ ∈ e ∧
      l.length < ([rS3, rS1, rS2] : List Record).length ∧
      g.length < ([rS3, rS1, rS2] : List Record).length) :=
  quicksort_total_of_allHave [rS3, rS1, rS2] "final_grade" false (by decide)

/-! Claim C5: pivot choice, one-pass three-way partition, and the
recombination scheme. -/

/-- C5.  For an input of length at least two, quicksort takes as pivot
the attribute value of the element at the middle index (length / 2);
the single partitioning pass splits the input into the less-than,
equal-to and greater-than-pivot groups (characterized here as the three
filters over the comparison classifier, in input order); ascending
output is sort(less) ++ equal ++ sort(greater) and descending output is
sort(greater) ++ equal ++ sort(less): descending recurses on swapped
sides of the same partition, the comparison itself is not reversed. -/
theorem quicksort_structure (ss : List Record) (a : String) (pivot : Value)
    (l e g : List Record) (h2 : 2 ≤ ss.length)
    (hpv : getAttr (ss.get ⟨ss.length / 2, by omega⟩) a = some pivot)
    (hpart : part3 a pivot ss = some (l, e, g)) :
    l = ss.filter (fun r => isLt (pclass a pivot r)) ∧
    e = ss.filter (fun r => isEqO (pclass a pivot r)) ∧
    g = ss.filter (fun r => isGt (pclass a pivot r)) ∧
    quicksort ss a false =
      (match quicksort l a false, quicksort g a false with
        | some sl, some sg => some (sl ++ e ++ sg)
        | _, _ => none) ∧
    quicksort ss a true =
      (match quicksort g a true, quicksort l a true with
        | some sg, some sl => some (sg ++ e ++ sl)
        | _, _ => none) := by
  obtain ⟨hl, he, hg⟩ := part3_eq_filters hpart
  have hmid : ss.length / 2 < ss.length := by omega
  have hpr : ss[ss.length / 2]? = some (ss.get ⟨ss.length / 2, hmid⟩) :=
    List.getElem?_eq_getElem hmid
  have hmem : ss.get ⟨ss.length / 2, hmid⟩ ∈ ss := List.get_mem ss _ _
  have hlt := part3_length_lt hpart hmem hpv
  obtain ⟨m, hm⟩ : ∃ m, ss.length = m + 1 := ⟨ss.length - 1, by omega⟩
  have hunfold : ∀ reverse : Bool,
      quicksort ss a reverse =
        (match quicksortF a reverse m l, quicksortF a reverse m g with
          | some sl, some sg =>
            if reverse then some (sg ++ e ++ sl) else some (sl ++ e ++ sg)
          | _, _ => none) := by
    intro reverse
    rw [quicksort, hm, quicksortF, if_neg (by omega)]
    simp only [hpr, hpv, hpart]
  have hL : ∀ reverse : Bool,
      quicksortF a reverse m l = quicksort l a reverse := fun reverse =>
    quicksortF_fuel_irrel m l.length l (by omega) le_rfl
  have hG : ∀ reverse : Bool,
      quicksortF a reverse m g = quicksort g a reverse := fun reverse =>
    quicksortF_fuel_irrel m g.length g (by omega) le_rfl
  refine ⟨hl, he, hg, ?_, ?_⟩
  · rw [hunfold false, hL false, hG false]
    cases quicksort l a false <;> cases quicksort g a false <;> rfl
  · rw [hunfold true, hL true, hG true]
    cases quicksort l a true <;> cases quicksort g a true <;> rfl

/-- C5 witness: the structure theorem applied to the grade scenario
records, whose pivot (middle element) is the 95.5 record. -/
theorem quicksort_structure_witness :
    [rS3] = List.filter
      (fun r => isLt (pclass "final_grade" (Value.num (Rat.mk' 191 2)) r))
      [rS3, rS1, rS2] ∧
    [rS1, rS2] = List.filter
      (fun r => isEqO (pclass "final_grade" (Value.num (Rat.mk' 191 2)) r))
      [rS3, rS1, rS2] ∧
    ([] : List Record) = List.filter
      (fun r => isGt (pclass "final_grade" (Value.num (Rat.mk' 191 2)) r))
      [rS3, rS1, rS2] ∧
    quicksort [rS3, rS1, rS2] "final_grade" false =
      (match quicksort [rS3] "final_grade" false,
          quicksort ([] : List Record) "final_grade" false with
        | some sl, some sg => some (sl ++ [rS1, rS2] ++ sg)
        | _, _ => none) ∧
    quicksort [rS3, rS1, rS2] "final_grade" true =
      (match quicksort ([] : List Record) "final_grade" true,
          quicksort [rS3] "final_grade" true with
        | some sg, some sl => some (sg ++ [rS1, rS2] ++ sl)
        | _, _ => none) :=
  quicksort_structure [rS3, rS1, rS2] "final_grade"
    (Value.num (Rat.mk' 191 2)) [rS3] [rS1, rS2] [] (by decide) (by decide)
    (by rfl)

/-! Idempotence machinery: a sorted list is reassembled unchanged by the
three-way partition, so quicksort leaves it fixed. -/

/-- On an ascending-sorted list the three comparison filters concatenate
back to the list itself. -/
theorem filter_split_sorted_asc {α K : Type} [LinearOrder K]
    (κ : α → K) (k0 : K) (p q u : α → Bool) :
    ∀ {l : List α},
      (∀ x ∈ l, (p x = true ↔ κ x < k0) ∧ (q x = true ↔ κ x = k0) ∧
        (u x = true ↔ k0 < κ x)) →
      List.Pairwise (fun x y => κ x ≤ κ y) l →
      l.filter p ++ l.filter q ++ l.filter u = l
  | [], _, _ => rfl
  | h :: rest, hcond, hsort => by
    have hhead : ∀ y ∈ rest, κ h ≤ κ y :=
      fun y hy => List.rel_of_pairwise_cons hsort hy
    have hrest : List.Pairwise (fun x y => κ x ≤ κ y) rest := hsort.of_cons
    have hcondr : ∀ x ∈ rest, (p x = true ↔ κ x < k0) ∧
        (q x = true ↔ κ x = k0) ∧ (u x = true ↔ k0 < κ x) :=
      fun x hx => hcond x (List.mem_cons_of_mem h hx)
    have ih := filter_split_sorted_asc κ k0 p q u hcondr hrest
    obtain ⟨hp, hq, hu⟩ := hcond h (List.mem_cons_self h rest)
    rcases lt_trichotomy (κ h) k0 with hlt | heq | hgt
    · have hpch : p h = true := hp.mpr hlt
      have hqch : q h = false := by
        cases hqv : q h
        · rfl
        · exact absurd (hq.mp hqv) (ne_of_lt hlt)
      have huch : u h = false := by
        cases huv : u h
        · rfl
        · exact absurd (hu.mp huv) (not_lt_of_gt hlt)
      simp only [List.filter_cons, hpch, hqch, huch, if_true, if_false,
        Bool.false_eq_true, List.cons_append]
      rw [ih]
    · have hpch : p h = false := by
        cases hpv : p h
        · rfl
        · exact absurd (hp.mp hpv) (by rw [heq]; exact lt_irrefl k0)
      have hqch : q h = true := hq.mpr heq
      have huch : u h = false := by
        cases huv : u h
        · rfl
        · exact absurd (hu.mp huv) (by rw [← heq]; exact lt_irrefl _)
      have hfp : rest.filter p = [] := by
        rw [List.filter_eq_nil_iff]
        intro y hy
        intro hpy
        have h1 := ((hcondr y hy).1).mp hpy
        have h2 := hhead y hy
        rw [heq] at h2
        exact absurd h1 (not_lt_of_ge h2)
      simp only [List.filter_cons, hpch, hqch, huch, if_true, if_false,
        Bool.false_eq_true, List.cons_append]
      rw [hfp] at ih ⊢
      simp only [List.nil_append] at ih ⊢
      rw [List.cons_append, ih]
    · have hpch : p h = false := by
        cases hpv : p h
        · rfl
        · exact absurd (hp.mp hpv) (not_lt_of_gt hgt)
      have hqch : q h = false := by
        cases hqv : q h
        · rfl
        · exact absurd (hq.mp hqv) (Ne.symm (ne_of_lt hgt))
      have huch : u h = true := hu.mpr hgt
      have hfp : rest.filter p = [] := by
        rw [List.filter_eq_nil_iff]
        intro y hy hpy
        have h1 := ((hcondr y hy).1).mp hpy
        have h2 := le_trans (le_of_lt hgt) (hhead y hy)
        exact absurd h1 (not_lt_of_ge h2)
      have hfq : rest.filter q = [] := by
        rw [List.filter_eq_nil_iff]
        intro y hy hqy
        have h1 := ((hcondr y hy).2.1).mp hqy
        have h2 := lt_of_lt_of_le hgt (hhead y hy)
        rw [h1] at h2
        exact absurd h2 (lt_irrefl k0)
      simp only [List.filter_cons, hpch, hqch, huch, if_true, if_false,
        Bool.false_eq_true]
      rw [hfp, hfq] at ih ⊢
      simp only [List.nil_append] at ih ⊢
      rw [ih]

/-- Mirror of filter_split_sorted_asc for a descending-sorted list: the
greater, equal and less filters concatenate back to the list. -/
theorem filter_split_sorted_desc {α K : Type} [LinearOrder K]
    (κ : α → K) (k0 : K) (p q u : α → Bool)
    {l : List α}
    (hcond : ∀ x ∈ l, (p x = true ↔ κ x < k0) ∧ (q x = true ↔ κ x = k0) ∧
      (u x = true ↔ k0 < κ x))
    (hsort : List.Pairwise (fun x y => κ y ≤ κ x) l) :
    l.filter u ++ l.filter q ++ l.filter p = l := by
  refine filter_split_sorted_asc (fun x => OrderDual.toDual (κ x))
    (OrderDual.toDual k0) u q p ?_ ?_
  · intro x hx
    obtain ⟨hp, hq, hu⟩ := hcond x hx
    refine ⟨?_, ?_, ?_⟩
    · rw [hu]
      exact Iff.symm OrderDual.toDual_lt_toDual
    · rw [hq]
      constructor
      · intro h1
        exact OrderDual.toDual_inj.mp h1.symm |>.symm
      · intro h1
        exact congrArg OrderDual.toDual h1.symm |>.symm
    · rw [hp]
      exact Iff.symm OrderDual.toDual_lt_toDual
  · refine hsort.imp ?_
    intro x y hxy
    exact OrderDual.toDual_le_toDual.mpr hxy

/-- Fixpoint lemma: a list that is already sorted for the given
direction (under consistently keyed comparisons) comes back unchanged
from quicksortF. -/
theorem quicksortF_fixpoint {K : Type} [LinearOrder K] {κ : Record → K}
    {a : String} {reverse : Bool} :
    ∀ (fuel : Nat) (ss : List Record), ss.length ≤ fuel → allHave a ss →
      KeyCompat κ a ss →
      List.Pairwise (fun x y => if reverse then κ y ≤ κ x else κ x ≤ κ y) ss →
      quicksortF a reverse fuel ss = some ss := by
  intro fuel
  induction fuel with
  | zero =>
    intro ss hlen _ _ _
    have hnil : ss = [] := List.length_eq_zero.mp (Nat.le_zero.mp hlen)
    subst hnil
    exact quicksortF_short 0 [] (by simp)
  | succ fuel ih =>
    intro ss hlen hall hkey hsort
    by_cases hb : ss.length ≤ 1
    · exact quicksortF_short _ ss hb
    · have hmid : ss.length / 2 < ss.length := by omega
      have hpr : ss[ss.length / 2]? = some (ss.get ⟨ss.length / 2, hmid⟩) :=
        List.getElem?_eq_getElem hmid
      have hr0mem : ss.get ⟨ss.length / 2, hmid⟩ ∈ ss := List.get_mem ss _ _
      obtain ⟨pivot, hpv⟩ := Option.isSome_iff_exists.mp (hall _ hr0mem)
      obtain ⟨⟨l, e, g⟩, hpart⟩ :=
        @part3_some_of_allHave a pivot _ hall
      obtain ⟨hl, he, hg⟩ := part3_eq_filters hpart
      have hlt := part3_length_lt hpart hr0mem hpv
      have halll : allHave a l := fun r hr =>
        hall r (List.mem_filter.mp (hl ▸ hr)).1
      have hallg : allHave a g := fun r hr =>
        hall r (List.mem_filter.mp (hg ▸ hr)).1
      have hsubl : ∀ r ∈ l, r ∈ ss := fun r hr =>
        (List.mem_filter.mp (hl ▸ hr)).1
      have hsubg : ∀ r ∈ g, r ∈ ss := fun r hr =>
        (List.mem_filter.mp (hg ▸ hr)).1
      have hkeyl : KeyCompat κ a l := fun r hr r' hr' =>
        hkey r (hsubl r hr) r' (hsubl r' hr')
      have hkeyg : KeyCompat κ a g := fun r hr r' hr' =>
        hkey r (hsubg r hr) r' (hsubg r' hr')
      have hκ0 : attrOf a (ss.get ⟨ss.length / 2, hmid⟩) = pivot := attrOf_eq hpv
      have hpc : ∀ x : Record,
          pclass a pivot x = ordAt a x (ss.get ⟨ss.length / 2, hmid⟩) := by
        intro x
        unfold pclass ordAt
        rw [hκ0]
      have hiffs : ∀ x ∈ ss,
          ((fun r => isLt (pclass a pivot r)) x = true ↔
            κ x < κ (ss.get ⟨ss.length / 2, hmid⟩)) ∧
          ((fun r => isEqO (pclass a pivot r)) x = true ↔
            κ x = κ (ss.get ⟨ss.length / 2, hmid⟩)) ∧
          ((fun r => isGt (pclass a pivot r)) x = true ↔
            κ (ss.get ⟨ss.length / 2, hmid⟩) < κ x) := by
        intro x hx
        refine ⟨?_, ?_, ?_⟩
        · rw [show (fun r => isLt (pclass a pivot r)) x = isLt (pclass a pivot x) from rfl,
            isLt_iff, hpc]
          exact (hkey x hx _ hr0mem).1
        · rw [show (fun r => isEqO (pclass a pivot r)) x = isEqO (pclass a pivot x) from rfl,
            isEqO_iff, hpc]
          exact (hkey x hx _ hr0mem).2
        · rw [show (fun r => isGt (pclass a pivot r)) x = isGt (pclass a pivot x) from rfl,
            isGt_iff, hpc]
          exact keyCompat_gt_iff hkey hx hr0mem
      cases reverse with
      | false =>
        simp only [Bool.false_eq_true, if_false] at hsort
        have hsplit := filter_split_sorted_asc κ
          (κ (ss.get ⟨ss.length / 2, hmid⟩))
          (fun r => isLt (pclass a pivot r)) (fun r => isEqO (pclass a pivot r))
          (fun r => isGt (pclass a pivot r)) hiffs hsort
        have hsplit3 : l ++ e ++ g = ss := by
          rw [hl, he, hg]
          exact hsplit
        have hsortl : List.Pairwise (fun x y => κ x ≤ κ y) l := by
          rw [hl]
          exact List.Pairwise.sublist (List.filter_sublist ss) hsort
        have hsortg : List.Pairwise (fun x y => κ x ≤ κ y) g := by
          rw [hg]
          exact List.Pairwise.sublist (List.filter_sublist ss) hsort
        have hql : quicksortF a false fuel l = some l :=
          ih l (by omega) halll hkeyl
            (by simp only [Bool.false_eq_true, if_false]; exact hsortl)
        have hqg : quicksortF a false fuel g = some g :=
          ih g (by omega) hallg hkeyg
            (by simp only [Bool.false_eq_true, if_false]; exact hsortg)
        rw [quicksortF, if_neg hb]
        simp only [hpr, hpv, hpart, hql, hqg, Bool.false_eq_true, if_false]
        rw [hsplit3]
      | true =>
        simp only [if_true] at hsort
        have hsplit := filter_split_sorted_desc κ
          (κ (ss.get ⟨ss.length / 2, hmid⟩))
          (fun r => isLt (pclass a pivot r)) (fun r => isEqO (pclass a pivot r))
          (fun r => isGt (pclass a pivot r)) hiffs hsort
        have hsplit3 : g ++ e ++ l = ss := by
          rw [hl, he, hg]
          exact hsplit
        have hsortl : List.Pairwise (fun x y => κ y ≤ κ x) l := by
          rw [hl]
          exact List.Pairwise.sublist (List.filter_sublist ss) hsort
        have hsortg : List.Pairwise (fun x y => κ y ≤ κ x) g := by
          rw [hg]
          exact List.Pairwise.sublist (List.filter_sublist ss) hsort
        have hql : quicksortF a true fuel l = some l :=
          ih l (by omega) halll hkeyl
            (by simp only [if_true]; exact hsortl)
        have hqg : quicksortF a true fuel g = some g :=
          ih g (by omega) hallg hkeyg
            (by simp only [if_true]; exact hsortg)
        rw [quicksortF, if_neg hb]
        simp only [hpr, hpv, hpart, hql, hqg, if_true]
        rw [hsplit3]

/-! Claim C6: idempotence of quicksort. -/

/-- C6 (amended).  When the attribute values are homogeneous in kind,
quicksort is idempotent: a sequence that is the output of quicksort for
an attribute and direction is returned unchanged by a second quicksort
with the same attribute and direction.  The homogeneity hypothesis is
forced by the counterexample quicksort_not_idempotent_mixed_counterexample. -/
theorem quicksort_idempotent_homog (ss : List Record) (a : String)
    (reverse : Bool) (out : List Record) (hall : allHave a ss)
    (hhom : homogA a ss) (hout : quicksort ss a reverse = some out) :
    quicksort out a reverse = some out := by
  obtain ⟨out', hout', hperm'⟩ := quicksortF_perm ss.length ss le_rfl hall
  rw [quicksort] at hout
  rw [hout'] at hout
  injection hout with hout
  subst hout
  have hmem : ∀ x ∈ out', x ∈ ss := fun x hx => hperm'.mem_iff.mp hx
  have hallo : allHave a out' := fun r hr => hall r (hmem r hr)
  rw [quicksort]
  rcases hhom with hnum | hstr
  · have hnumo : allNumA a out' := fun r hr => hnum r (hmem r hr)
    have hkey := keyCompat_of_allNum hnum
    have hkeyo := keyCompat_of_allNum hnumo
    have hch := quicksortF_sorted_keys ss.length ss le_rfl hall hkey out' hout'
    have hpw : List.Pairwise (fun x y =>
        if reverse then ratOf (attrOf a y) ≤ ratOf (attrOf a x)
        else ratOf (attrOf a x) ≤ ratOf (attrOf a y)) out' := by
      cases reverse with
      | false =>
        simp only [Bool.false_eq_true, if_false] at hch ⊢
        haveI : IsTrans Record
            (fun x y => ratOf (attrOf a x) ≤ ratOf (attrOf a y)) :=
          ⟨fun _ _ _ h1 h2 => le_trans h1 h2⟩
        exact List.chain'_iff_pairwise.mp hch
      | true =>
        simp only [if_true] at hch ⊢
        haveI : IsTrans Record
            (fun x y => ratOf (attrOf a y) ≤ ratOf (attrOf a x)) :=
          ⟨fun _ _ _ h1 h2 => le_trans h2 h1⟩
        exact List.chain'_iff_pairwise.mp hch
    exact quicksortF_fixpoint out'.length out' le_rfl hallo hkeyo hpw
  · have hstro : allStrA a out' := fun r hr => hstr r (hmem r hr)
    have hkey := keyCompat_of_allStr hstr
    have hkeyo := keyCompat_of_allStr hstro
    have hch := quicksortF_sorted_keys ss.length ss le_rfl hall hkey out' hout'
    have hpw : List.Pairwise (fun x y =>
        if reverse then strKeyOf (attrOf a y) ≤ strKeyOf (attrOf a x)
        else strKeyOf (attrOf a x) ≤ strKeyOf (attrOf a y)) out' := by
      cases reverse with
      | false =>
        simp only [Bool.false_eq_true, if_false] at hch ⊢
        haveI : IsTrans Record
            (fun x y => strKeyOf (attrOf a x) ≤ strKeyOf (attrOf a y)) :=
          ⟨fun _ _ _ h1 h2 => le_trans h1 h2⟩
        exact List.chain'_iff_pairwise.mp hch
      | true =>
        simp only [if_true] at hch ⊢
        haveI : IsTrans Record
            (fun x y => strKeyOf (attrOf a y) ≤ strKeyOf (attrOf a x)) :=
          ⟨fun _ _ _ h1 h2 => le_trans h2 h1⟩
        exact List.chain'_iff_pairwise.mp hch
    exact quicksortF_fixpoint out'.length out' le_rfl hallo hkeyo hpw

/-- C6 counterexample.  With mixed kinds quicksort need not be
idempotent: the student_id input "10", 10, 2 sorts (ascending) to
2, "10", 10, and sorting that output again gives "10", 10, 2, a
different sequence. -/
theorem quicksort_not_idempotent_mixed_counterexample :
    quicksort [rId10s, rId10n, rId2n] "student_id" false =
      some [rId2n, rId10s, rId10n] ∧
    quicksort [rId2n, rId10s, rId10n] "student_id" false =
      some [rId10s, rId10n, rId2n] ∧
    ([rId10s, rId10n, rId2n] : List Record) ≠ [rId2n, rId10s, rId10n] := by
  refine ⟨by decide, by decide, by decide⟩

/-- C6 witness: sorting the grade records twice gives the same output. -/
theorem quicksort_idempotent_homog_witness :
    quicksort [rS3, rS1, rS2] "final_grade" false = some [rS3, rS1, rS2] :=
  quicksort_idempotent_homog [rS1, rS3, rS2] "final_grade" false
    [rS3, rS1, rS2] (by decide) (Or.inl (by decide)) (by rfl)

/-! Claim C8: the grade scenario. -/

/-- C8.  Sorting the records S3 (70.0), S1 (95.5), S2 (95.5) by
final_grade ascending puts the 70.0 record first with both 95.5 records
after it, and searching the sorted result for 95.5 returns exactly the
two tied records.  The rational written Rat.mk' 191 2 is 95.5. -/
theorem scenario_sort_and_search_ties :
    quicksort [rS3, rS1, rS2] "final_grade" false = some [rS3, rS1, rS2] ∧
    binary_search [rS3, rS1, rS2] "final_grade" (Value.num (Rat.mk' 191 2)) =
      some [rS1, rS2] ∧
    (Rat.mk' 191 2 : Rat) = 191 / 2 := by
  refine ⟨by rfl, by rfl, ?_⟩
  rw [Rat.mk'_eq_divInt, Rat.divInt_eq_div]
  norm_num

/-! Claim C4: the comparison rule. -/

/-- C4.  Two numeric values are compared numerically: the comparison is
lt, eq or gt exactly as the rationals are ordered.  Every other pair is
coerced to text and compared lexicographically on the lower-cased
texts; in particular Fall2024 and fall2024 rank equal, and the sort and
search engines observe this: sorting the two semester records puts both
in one equal group (preserving their order), and searching with the
other-cased spelling finds the record. -/
theorem comparison_rule_mixed_and_case :
    (∀ p q : Rat,
      (cmpVal (Value.num p) (Value.num q) = Ordering.lt ↔ p < q) ∧
      (cmpVal (Value.num p) (Value.num q) = Ordering.eq ↔ p = q) ∧
      (cmpVal (Value.num p) (Value.num q) = Ordering.gt ↔ q < p)) ∧
    (∀ v w : Value, v.isNum = false ∨ w.isNum = false →
      cmpVal v w = lexOrd3 (lowerChars v.toText) (lowerChars w.toText)) ∧
    cmpVal (Value.str "Fall2024") (Value.str "fall2024") = Ordering.eq ∧
    quicksort [rSemFall, rSemfall] "semester" false =
      some [rSemFall, rSemfall] ∧
    binary_search [rSemFall] "semester" (Value.str "fall2024") =
      some [rSemFall] := by
  refine ⟨?_, ?_, by decide, by decide, by decide⟩
  · intro p q
    rw [cmpVal_num_num]
    exact ⟨ord3_lt_iff, ⟨ord3_eq_iff, ord3_gt_iff⟩⟩
  · intro v w h
    exact cmpVal_strlike h

/-- C4 witness: the textual branch applied to a number compared against
a string. -/
theorem comparison_rule_mixed_and_case_witness :
    cmpVal (Value.num 2) (Value.str "10") =
      lexOrd3 (lowerChars (Value.num 2).toText)
        (lowerChars (Value.str "10").toText) :=
  comparison_rule_mixed_and_case.2.1 (Value.num 2) (Value.str "10")
    (Or.inr rfl)

/-! Binary search: the no-match case (claim C3). -/

theorem bsearchLoop_no_match {ss : List Record} {a : String} {v : Value}
    (hall : allHave a ss)
    (hno : ∀ r ∈ ss, cmpVal (attrOf a r) v ≠ Ordering.eq) :
    ∀ (fuel left stop : Nat), stop ≤ ss.length → stop - left ≤ fuel →
      bsearchLoop ss a v fuel left stop none = some none := by
  intro fuel
  induction fuel with
  | zero =>
    intro left stop hstop hfuel
    rw [bsearchLoop, if_neg (by omega)]
  | succ fuel ih =>
    intro left stop hstop hfuel
    by_cases hls : left < stop
    · rw [bsearchLoop, if_pos hls]
      have hmid1 : left ≤ (left + stop - 1) / 2 := by omega
      have hmid2 : (left + stop - 1) / 2 < stop := by omega
      have hmidlen : (left + stop - 1) / 2 < ss.length := by omega
      have hpr : ss[(left + stop - 1) / 2]? =
          some (ss.get ⟨(left + stop - 1) / 2, hmidlen⟩) :=
        List.getElem?_eq_getElem hmidlen
      obtain ⟨mv, hval⟩ := Option.isSome_iff_exists.mp
        (hall _ (List.get_mem ss _ _))
      have hnomid : cmpVal mv v ≠ Ordering.eq := by
        have := hno _ (List.get_mem ss ((left + stop - 1) / 2) hmidlen)
        rwa [attrOf_eq hval] at this
      simp only [hpr, hval]
      cases hc : cmpVal mv v with
      | eq => exact absurd hc hnomid
      | lt => exact ih ((left + stop - 1) / 2 + 1) stop hstop (by omega)
      | gt => exact ih left ((left + stop - 1) / 2) (by omega) (by omega)
    · rw [bsearchLoop, if_neg hls]

/-- C3.  On a sorted input with the attribute present, searching for a
value that matches no record returns the empty list normally: no
exception occurs (the result is some, not none) and the empty result is
the ordinary no-match outcome. -/
theorem binary_search_no_match (ss : List Record) (a : String) (v : Value)
    (hall : allHave a ss) (_hsorted : List.Chain' (ascAdj a) ss)
    (hno : ∀ r ∈ ss, cmpVal (attrOf a r) v ≠ Ordering.eq) :
    binary_search ss a v = some [] := by
  rw [binary_search]
  by_cases hempty : ss.isEmpty
  · rw [if_pos hempty]
  · rw [if_neg hempty,
      bsearchLoop_no_match hall hno ss.length 0 ss.length le_rfl (by omega)]

/-- C3 witness: searching the sorted grade records for the absent grade
50 returns the empty list. -/
theorem binary_search_no_match_witness :
    binary_search [rS3, rS1, rS2] "final_grade" (Value.num 50) = some [] :=
  binary_search_no_match [rS3, rS1, rS2] "final_grade" (Value.num 50)
    (by decide)
    (List.chain'_cons.mpr ⟨by decide,
      List.chain'_cons.mpr ⟨by decide, List.chain'_singleton rS2⟩⟩)
    (by decide)

/-! Binary search with consistently keyed comparisons: the locating
loop finds exactly the leftmost match. -/

theorem bsearchLoop_keyed {K : Type} [LinearOrder K] {κ : Record → K}
    {a : String} {v : Value} {kv : K} {ss : List Record}
    (hall : allHave a ss) (hcmp : ValCompat κ a v kv ss)
    (hmono : ∀ (i j : Nat) (hi : i < ss.length) (hj : j < ss.length), i ≤ j →
      κ (ss.get ⟨i, hi⟩) ≤ κ (ss.get ⟨j, hj⟩)) :
    ∀ (fuel left stop : Nat) (fi : Option Nat),
      stop ≤ ss.length → stop - left ≤ fuel →
      (∀ (i : Nat) (hi : i < ss.length), i < left → κ (ss.get ⟨i, hi⟩) < kv) →
      (match fi with
       | none => ∀ (i : Nat) (hi : i < ss.length),
           κ (ss.get ⟨i, hi⟩) = kv → left ≤ i ∧ i < stop
       | some m => m = stop ∧ ∃ hm : m < ss.length, κ (ss.get ⟨m, hm⟩) = kv) →
      ∃ res, bsearchLoop ss a v fuel left stop fi = some res ∧
        (match res with
         | none => ∀ (i : Nat) (hi : i < ss.length), κ (ss.get ⟨i, hi⟩) ≠ kv
         | some m => ∃ hm : m < ss.length, κ (ss.get ⟨m, hm⟩) = kv ∧
             ∀ (i : Nat) (hi : i < ss.length), κ (ss.get ⟨i, hi⟩) = kv → m ≤ i) := by
  intro fuel
  induction fuel with
  | zero =>
    intro left stop fi hstop hfuel hinv1 hinvf
    have hls : ¬ left < stop := by omega
    refine ⟨fi, by rw [bsearchLoop, if_neg hls], ?_⟩
    cases fi with
    | none =>
      intro i hi hkeq
      obtain ⟨h1, h2⟩ := hinvf i hi hkeq
      omega
    | some m =>
      obtain ⟨hm_eq, hm, hkey⟩ := hinvf
      refine ⟨hm, hkey, ?_⟩
      intro i hi hkeq
      by_contra hlt
      push_neg at hlt
      have hik := hinv1 i hi (by omega)
      rw [hkeq] at hik
      exact lt_irrefl kv hik
  | succ fuel ih =>
    intro left stop fi hstop hfuel hinv1 hinvf
    by_cases hls : left < stop
    · have hmid1 : left ≤ (left + stop - 1) / 2 := by omega
      have hmid2 : (left + stop - 1) / 2 < stop := by omega
      have hmidlen : (left + stop - 1) / 2 < ss.length := by omega
      set mid := (left + stop - 1) / 2 with hmid_def
      have hpr : ss[mid]? = some (ss.get ⟨mid, hmidlen⟩) :=
        List.getElem?_eq_getElem hmidlen
      have hmemmid : ss.get ⟨mid, hmidlen⟩ ∈ ss := List.get_mem ss _ _
      obtain ⟨mv, hval⟩ := Option.isSome_iff_exists.mp (hall _ hmemmid)
      have hattr : attrOf a (ss.get ⟨mid, hmidlen⟩) = mv := attrOf_eq hval
      have hcl := (hcmp _ hmemmid).1
      have hce := (hcmp _ hmemmid).2
      have hcg := valCompat_gt_iff hcmp hmemmid
      rw [hattr] at hcl hce hcg
      rw [bsearchLoop, if_pos hls]
      simp only [← hmid_def, hpr, hval]
      cases hc : cmpVal mv v with
      | eq =>
        have hkmid : κ (ss.get ⟨mid, hmidlen⟩) = kv := hce.mp hc
        exact ih left mid (some mid) (by omega) (by omega) hinv1
          ⟨rfl, hmidlen, hkmid⟩
      | lt =>
        have hkmid : κ (ss.get ⟨mid, hmidlen⟩) < kv := hcl.mp hc
        refine ih (mid + 1) stop fi hstop (by omega) ?_ ?_
        · intro i hi hilt
          exact lt_of_le_of_lt (hmono i mid hi hmidlen (by omega)) hkmid
        · cases fi with
          | none =>
            intro i hi hkeq
            obtain ⟨h1, h2⟩ := hinvf i hi hkeq
            have hgt : ¬ i ≤ mid := by
              intro hle
              have hik := hmono i mid hi hmidlen hle
              rw [hkeq] at hik
              exact absurd (lt_of_le_of_lt hik hkmid) (lt_irrefl kv)
            exact ⟨by omega, h2⟩
          | some m => exact hinvf
      | gt =>
        have hkmid : kv < κ (ss.get ⟨mid, hmidlen⟩) := hcg.mp hc
        refine ih left mid fi (by omega) (by omega) hinv1 ?_
        cases fi with
        | none =>
          intro i hi hkeq
          obtain ⟨h1, h2⟩ := hinvf i hi hkeq
          refine ⟨h1, ?_⟩
          by_contra hge
          push_neg at hge
          have hik := hmono mid i hmidlen hi hge
          rw [hkeq] at hik
          exact absurd (lt_of_lt_of_le hkmid hik) (lt_irrefl kv)
        | some m =>
          obtain ⟨hm_eq, hm, hkey⟩ := hinvf
          exfalso
          subst hm_eq
          have hik := hmono mid m hmidlen hm (by omega)
          rw [hkey] at hik
          exact absurd (lt_of_lt_of_le hkmid hik) (lt_irrefl kv)
    · refine ⟨fi, by rw [bsearchLoop, if_neg hls], ?_⟩
      cases fi with
      | none =>
        intro i hi hkeq
        obtain ⟨h1, h2⟩ := hinvf i hi hkeq
        omega
      | some m =>
        obtain ⟨hm_eq, hm, hkey⟩ := hinvf
        refine ⟨hm, hkey, ?_⟩
        intro i hi hkeq
        by_contra hlt
        push_neg at hlt
        have hik := hinv1 i hi (by omega)
        rw [hkeq] at hik
        exact lt_irrefl kv hik

/-- The forward scan collects exactly the maximal run of matching
records starting at the given index. -/
theorem scanForward_spec {ss : List Record} {a : String} {v : Value}
    (hall : allHave a ss) :
    ∀ (fuel i : Nat), ss.length - i ≤ fuel →
      scanForward ss a v fuel i =
        some ((ss.drop i).takeWhile (matchesVal a v)) := by
  intro fuel
  induction fuel with
  | zero =>
    intro i hfuel
    have hni : ¬ i < ss.length := by omega
    rw [scanForward, if_neg hni, List.drop_eq_nil_of_le (by omega)]
    rfl
  | succ fuel ih =>
    intro i hfuel
    by_cases hi : i < ss.length
    · rw [scanForward, if_pos hi]
      have hpr : ss[i]? = some ss[i] := List.getElem?_eq_getElem hi
      have hmem : ss[i] ∈ ss := List.getElem_mem hi
      obtain ⟨mv, hval⟩ := Option.isSome_iff_exists.mp (hall _ hmem)
      have hattr : attrOf a ss[i] = mv := attrOf_eq hval
      have hdrop : ss.drop i = ss[i] :: ss.drop (i + 1) :=
        List.drop_eq_getElem_cons hi
      rw [hdrop, List.takeWhile_cons]
      have hmatch : matchesVal a v ss[i] = isEqO (cmpVal mv v) := by
        rw [matchesVal, hattr]
      simp only [hpr, hval]
      by_cases hc : cmpVal mv v = Ordering.eq
      · rw [if_pos hc, ih (i + 1) (by omega)]
        rw [hmatch, hc]
        rfl
      · rw [if_neg hc]
        have : isEqO (cmpVal mv v) = false := by
          cases hcv : cmpVal mv v with
          | eq => exact absurd hcv hc
          | lt => rfl
          | gt => rfl
        rw [hmatch, this]
        rfl
    · rw [scanForward, if_neg hi, List.drop_eq_nil_of_le (by omega)]
      rfl

/-- The backward scan stops immediately on a non-matching record just
left of the start index. -/
theorem scanBackward_nomatch {ss : List Record} {a : String} {v mv : Value}
    {j : Nat} (hj : j < ss.length) (hval : getAttr ss[j] a = some mv)
    (hne : cmpVal mv v ≠ Ordering.eq) (acc : List Record) :
    scanBackward ss a v (j + 1) acc = some acc := by
  have hpr : ss[j]? = some ss[j] := List.getElem?_eq_getElem hj
  rw [scanBackward]
  simp only [hpr, hval, if_neg hne]

/-- Completeness of binary_search under consistently keyed comparisons:
the result is exactly the filter of the matching records, in input
order. -/
theorem binary_search_keyed {K : Type} [LinearOrder K] {κ : Record → K}
    {a : String} {v : Value} {kv : K} {ss : List Record}
    (hall : allHave a ss) (hcmp : ValCompat κ a v kv ss)
    (hmono : ∀ (i j : Nat) (hi : i < ss.length) (hj : j < ss.length), i ≤ j →
      κ (ss.get ⟨i, hi⟩) ≤ κ (ss.get ⟨j, hj⟩)) :
    binary_search ss a v = some (ss.filter (matchesVal a v)) := by
  have hmv : ∀ r ∈ ss, (matchesVal a v r = true ↔ κ r = kv) := by
    intro r hr
    rw [matchesVal, isEqO_iff]
    exact (hcmp r hr).2
  by_cases hempty : ss.isEmpty
  · have hnil : ss = [] := List.isEmpty_iff.mp hempty
    subst hnil
    rfl
  · rw [binary_search, if_neg hempty]
    obtain ⟨res, hres, hpost⟩ := bsearchLoop_keyed hall hcmp hmono
      ss.length 0 ss.length none le_rfl (by omega)
      (fun i hi h => absurd h (by omega))
      (fun i hi _ => ⟨Nat.zero_le i, hi⟩)
    cases res with
    | none =>
      have hfilter : ss.filter (matchesVal a v) = [] := by
        rw [List.filter_eq_nil_iff]
        intro r hr hmr
        obtain ⟨n, hn, hne⟩ := List.getElem_of_mem hr
        refine hpost n hn ?_
        rw [List.get_eq_getElem, hne]
        exact (hmv r hr).mp hmr
      simp only [hres, hfilter]
    | some L =>
      obtain ⟨hL, hkeyL, hleast⟩ := hpost
      rw [List.get_eq_getElem] at hkeyL
      have hmatchL : matchesVal a v ss[L] = true :=
        (hmv ss[L] (List.getElem_mem hL)).mpr hkeyL
      have hdropL : ss.drop L = ss[L] :: ss.drop (L + 1) :=
        List.drop_eq_getElem_cons hL
      have ht : (ss.drop L).takeWhile (matchesVal a v) =
          ss[L] :: (ss.drop (L + 1)).takeWhile (matchesVal a v) := by
        rw [hdropL, List.takeWhile_cons, if_pos hmatchL]
      have hpw : List.Pairwise (fun x y => κ x ≤ κ y) ss :=
        List.pairwise_iff_getElem.mpr (fun i j hi hj hij =>
          hmono i j hi hj (le_of_lt hij))
      have hpwd : List.Pairwise (fun x y => κ x ≤ κ y) (ss.drop L) :=
        List.Pairwise.sublist (List.drop_sublist L ss) hpw
      have hsplit := List.takeWhile_append_dropWhile (matchesVal a v) (ss.drop L)
      have hfilter : ss.filter (matchesVal a v) =
          (ss.drop L).takeWhile (matchesVal a v) := by
        have htake : (ss.take L).filter (matchesVal a v) = [] := by
          rw [List.filter_eq_nil_iff]
          intro r hr hmr
          obtain ⟨k, hk, hke⟩ := List.getElem_of_mem hr
          have hkL : k < L := by
            have h2 := hk
            rw [List.length_take] at h2
            omega
          have hklen : k < ss.length := by omega
          have hrk : r = ss[k] := by
            rw [← hke, List.getElem_take]
          have hrss : r ∈ ss := by
            rw [hrk]
            exact List.getElem_mem hklen
          have hkey : κ (ss.get ⟨k, hklen⟩) = kv := by
            rw [List.get_eq_getElem, ← hrk]
            exact (hmv r hrss).mp hmr
          have := hleast k hklen hkey
          omega
        have hfiltert : ((ss.drop L).takeWhile (matchesVal a v)).filter
            (matchesVal a v) = (ss.drop L).takeWhile (matchesVal a v) :=
          List.filter_eq_self.mpr (fun x hx => List.mem_takeWhile_imp hx)
        have hfilterd : ((ss.drop L).dropWhile (matchesVal a v)).filter
            (matchesVal a v) = [] := by
          cases hd : (ss.drop L).dropWhile (matchesVal a v) with
          | nil => rfl
          | cons x tl =>
            have hxfalse : matchesVal a v x = false := by
              have h0 := List.head?_dropWhile_not (matchesVal a v) (ss.drop L)
              rw [hd] at h0
              simpa using h0
            have hsubd : ∀ y ∈ x :: tl, y ∈ ss := by
              intro y hy
              rw [← hd] at hy
              exact (List.Sublist.trans
                (List.dropWhile_sublist (matchesVal a v))
                (List.drop_sublist L ss)).mem hy
            have hcross : ∀ p ∈ (ss.drop L).takeWhile (matchesVal a v),
                ∀ q ∈ (ss.drop L).dropWhile (matchesVal a v), κ p ≤ κ q := by
              have := hpwd
              rw [← hsplit] at this
              exact (List.pairwise_append.mp this).2.2
            have hxge : kv < κ x := by
              have h1 : κ ss[L] ≤ κ x := by
                refine hcross ss[L] ?_ x ?_
                · rw [ht]
                  exact List.mem_cons_self _ _
                · rw [hd]
                  exact List.mem_cons_self _ _
              rw [hkeyL] at h1
              rcases lt_or_eq_of_le h1 with h2 | h2
              · exact h2
              · exfalso
                have : matchesVal a v x = true :=
                  (hmv x (hsubd x (List.mem_cons_self _ _))).mpr h2.symm
                rw [this] at hxfalse
                cases hxfalse
            have hpwdd : List.Pairwise (fun x y => κ x ≤ κ y)
                ((ss.drop L).dropWhile (matchesVal a v)) :=
              List.Pairwise.sublist (List.dropWhile_sublist (matchesVal a v))
                hpwd
            rw [List.filter_eq_nil_iff]
            intro y hy hmy
            have hykv : κ y = kv :=
              (hmv y (hsubd y hy)).mp hmy
            rcases List.mem_cons.mp hy with rfl | hytl
            · rw [hykv] at hxge
              exact lt_irrefl kv hxge
            · rw [hd] at hpwdd
              have h3 := List.rel_of_pairwise_cons hpwdd hytl
              rw [hykv] at h3
              exact absurd (lt_of_lt_of_le hxge h3) (lt_irrefl kv)
        have hfd : (ss.drop L).filter (matchesVal a v) =
            (ss.drop L).takeWhile (matchesVal a v) := by
          conv_lhs => rw [← hsplit]
          rw [List.filter_append, hfiltert, hfilterd, List.append_nil]
        conv_lhs => rw [← List.take_append_drop L ss]
        rw [List.filter_append, htake, List.nil_append]
        exact hfd
      simp only [hres, scanForward_spec hall (ss.length - L) L (by omega)]
      have hback : scanBackward ss a v L
          ((ss.drop L).takeWhile (matchesVal a v)) =
          some ((ss.drop L).takeWhile (matchesVal a v)) := by
        cases L with
        | zero => rfl
        | succ j =>
          have hj : j < ss.length := by omega
          have hmemj : ss[j] ∈ ss := List.getElem_mem hj
          obtain ⟨mvj, hvalj⟩ := Option.isSome_iff_exists.mp (hall _ hmemj)
          refine scanBackward_nomatch hj hvalj ?_ _
          intro hceq
          have hkj : κ ss[j] = kv := by
            have := (hcmp ss[j] hmemj).2
            rw [attrOf_eq hvalj] at this
            exact this.mp hceq
          have := hleast j hj (by rw [List.get_eq_getElem]; exact hkj)
          omega
      rw [hback, hfilter]

/-- An ascending adjacent chain with compatible keys gives index-monotone
keys. -/
theorem mono_keys_of_chain {K : Type} [LinearOrder K] {κ : Record → K}
    {a : String} {ss : List Record}
    (hkc : KeyCompat κ a ss) (hch : List.Chain' (ascAdj a) ss) :
    ∀ (i j : Nat) (hi : i < ss.length) (hj : j < ss.length), i ≤ j →
      κ (ss.get ⟨i, hi⟩) ≤ κ (ss.get ⟨j, hj⟩) := by
  have hch2 : List.Chain' (fun x y => κ x ≤ κ y) ss := by
    refine chain'_imp_of_mem ?_ hch
    intro x hx y hy hxy
    rcases ordering_cases (ordAt a x y) with ho | ho | ho
    · exact le_of_lt ((hkc x hx y hy).1.mp ho)
    · exact le_of_eq ((hkc x hx y hy).2.mp ho)
    · exact absurd ho hxy
  haveI : IsTrans Record (fun x y => κ x ≤ κ y) :=
    ⟨fun _ _ _ h1 h2 => le_trans h1 h2⟩
  have hpw : List.Pairwise (fun x y => κ x ≤ κ y) ss :=
    List.chain'_iff_pairwise.mp hch2
  intro i j hi hj hij
  simp only [List.get_eq_getElem]
  rcases Nat.lt_or_ge i j with hlt | hge
  · exact List.pairwise_iff_getElem.mp hpw i j hi hj hlt
  · have hij2 : i = j := by omega
    subst hij2
    exact le_rfl

/-- C2 (amended).  For every input sorted ascending by the attribute,
with every record carrying the attribute and the attribute values
homogeneous in kind with the search value (all numeric with a numeric
search value, or all strings), binary_search returns exactly the
matching records, in their original relative (ascending-position)
order: the filter of the input by the comparison rule.  With mixed
kinds the comparison rule is inconsistent and a matching record can be
missed. -/
theorem binary_search_complete (ss : List Record) (a : String) (v : Value)
    (hall : allHave a ss) (hsorted : List.Chain' (ascAdj a) ss)
    (hhom : (allNumA a ss ∧ v.isNum = true) ∨ allStrA a ss) :
    binary_search ss a v = some (ss.filter (matchesVal a v)) := by
  rcases hhom with ⟨hnum, hvn⟩ | hstr
  · cases v with
    | str s => simp [Value.isNum] at hvn
    | num q =>
      exact binary_search_keyed hall (valCompat_of_allNum hnum)
        (mono_keys_of_chain (keyCompat_of_allNum hnum) hsorted)
  · exact binary_search_keyed hall (valCompat_of_allStr hstr)
      (mono_keys_of_chain (keyCompat_of_allStr hstr) hsorted)

/-- C2 counterexample.  With mixed kinds the claim as stated fails: the
list of student_id values 2, 10 (both numbers) is sorted ascending
under the comparison rule, the search value "10" matches the second
record under the comparison rule, yet binary_search returns the empty
list. -/
theorem binary_search_incomplete_mixed_counterexample :
    List.Chain' (ascAdj "student_id") [rId2n, rId10n] ∧
    matchesVal "student_id" (Value.str "10") rId10n = true ∧
    binary_search [rId2n, rId10n] "student_id" (Value.str "10") = some [] :=
  ⟨List.chain'_cons.mpr ⟨by decide, List.chain'_singleton _⟩,
    by decide, by decide⟩

/-- C2 witness: searching the sorted grade records for 95.5 returns
exactly the two matching records, in input order. -/
theorem binary_search_complete_witness :
    binary_search [rS3, rS1, rS2] "final_grade" (Value.num (Rat.mk' 191 2)) =
      some (([rS3, rS1, rS2]).filter
        (matchesVal "final_grade" (Value.num (Rat.mk' 191 2)))) :=
  binary_search_complete _ _ _ (by decide)
    (List.chain'_cons.mpr ⟨by decide,
      List.chain'_cons.mpr ⟨by decide, List.chain'_singleton _⟩⟩)
    (Or.inl ⟨by decide, rfl⟩)

/-- With consistently keyed comparisons on an index-monotone list, when
a matching record exists the locating loop returns exactly the leftmost
matching index, and the backward scan from there returns any
accumulator unchanged. -/
theorem bsearchLoop_leftmost_keyed {K : Type} [LinearOrder K]
    {κ : Record → K} {a : String} {v : Value} {kv : K} {ss : List Record}
    (hall : allHave a ss) (hcmp : ValCompat κ a v kv ss)
    (hmono : ∀ (i j : Nat) (hi : i < ss.length) (hj : j < ss.length), i ≤ j →
      κ (ss.get ⟨i, hi⟩) ≤ κ (ss.get ⟨j, hj⟩))
    {L : Nat} (hL : L < ss.length)
    (hmatch : matchesVal a v (ss.get ⟨L, hL⟩) = true)
    (hleft : ∀ (i : Nat) (hi : i < ss.length),
      matchesVal a v (ss.get ⟨i, hi⟩) = true → L ≤ i) :
    bsearchLoop ss a v ss.length 0 ss.length none = some (some L) ∧
    ∀ acc, scanBackward ss a v L acc = some acc := by
  have hmv : ∀ r ∈ ss, (matchesVal a v r = true ↔ κ r = kv) := by
    intro r hr
    rw [matchesVal, isEqO_iff]
    exact (hcmp r hr).2
  obtain ⟨res, hres, hpost⟩ := bsearchLoop_keyed hall hcmp hmono
    ss.length 0 ss.length none le_rfl (by omega)
    (fun i hi h => absurd h (by omega))
    (fun i hi _ => ⟨Nat.zero_le i, hi⟩)
  have hkL : κ (ss.get ⟨L, hL⟩) = kv :=
    (hmv _ (List.get_mem ss L hL)).mp hmatch
  cases res with
  | none => exact absurd hkL (hpost L hL)
  | some m =>
    obtain ⟨hm, hkeym, hleast⟩ := hpost
    have hmL : m = L := by
      have h1 := hleast L hL hkL
      have h2 := hleft m hm ((hmv _ (List.get_mem ss m hm)).mpr hkeym)
      omega
    rw [hmL] at hres
    refine ⟨hres, ?_⟩
    intro acc
    cases hLs : L with
    | zero => rfl
    | succ j =>
      have hj : j < ss.length := by omega
      obtain ⟨mvj, hvalj⟩ := Option.isSome_iff_exists.mp
        (hall ss[j] (List.getElem_mem hj))
      refine scanBackward_nomatch hj hvalj ?_ acc
      intro hceq
      have hkj : κ ss[j] = kv := by
        have h3 := (hcmp ss[j] (List.getElem_mem hj)).2
        rw [attrOf_eq hvalj] at h3
        exact h3.mp hceq
      have h4 := hleft j hj (by
        rw [List.get_eq_getElem]
        exact (hmv ss[j] (List.getElem_mem hj)).mpr hkj)
      omega

/-- C10 (amended).  For every input sorted ascending by the attribute,
with every record carrying the attribute and the attribute values
homogeneous in kind with the search value, when the record at index L
matches the search value and no earlier record does, the locating loop
sets first_index to exactly L (stronger than mere convergence toward
the first occurrence), and the phase-3 backward scan from L adds no
records to the forward-scan result.  With mixed kinds this fails: the
loop can miss an existing match entirely. -/
theorem bsearch_first_index_leftmost (ss : List Record) (a : String)
    (v : Value) (L : Nat) (hL : L < ss.length)
    (hall : allHave a ss) (hsorted : List.Chain' (ascAdj a) ss)
    (hhom : (allNumA a ss ∧ v.isNum = true) ∨ allStrA a ss)
    (hmatch : matchesVal a v (ss.get ⟨L, hL⟩) = true)
    (hleft : ∀ (i : Nat) (hi : i < ss.length),
      matchesVal a v (ss.get ⟨i, hi⟩) = true → L ≤ i) :
    bsearchLoop ss a v ss.length 0 ss.length none = some (some L) ∧
    scanBackward ss a v L ((ss.drop L).takeWhile (matchesVal a v)) =
      some ((ss.drop L).takeWhile (matchesVal a v)) := by
  rcases hhom with ⟨hnum, hvn⟩ | hstr
  · cases v with
    | str s => simp [Value.isNum] at hvn
    | num q =>
      obtain ⟨h1, h2⟩ := bsearchLoop_leftmost_keyed hall
        (valCompat_of_allNum hnum)
        (mono_keys_of_chain (keyCompat_of_allNum hnum) hsorted)
        hL hmatch hleft
      exact ⟨h1, h2 _⟩
  · obtain ⟨h1, h2⟩ := bsearchLoop_leftmost_keyed hall
      (valCompat_of_allStr hstr)
      (mono_keys_of_chain (keyCompat_of_allStr hstr) hsorted)
      hL hmatch hleft
    exact ⟨h1, h2 _⟩

/-- C10 counterexample.  With mixed kinds the locating loop can miss an
existing match entirely: on the ascending-sorted student_id values 2,
10 (numbers), searching for "10" (which matches the record at index 1
under the comparison rule) the loop terminates without ever setting
first_index. -/
theorem bsearch_first_index_mixed_counterexample :
    List.Chain' (ascAdj "student_id") [rId2n, rId10n] ∧
    matchesVal "student_id" (Value.str "10") rId10n = true ∧
    bsearchLoop [rId2n, rId10n] "student_id" (Value.str "10") 2 0 2 none =
      some none :=
  ⟨List.chain'_cons.mpr ⟨by decide, List.chain'_singleton _⟩,
    by decide, by decide⟩

/-- C10 witness: on the sorted grade records the loop locates index 1,
the leftmost record with grade 95.5, and the backward scan adds
nothing. -/
theorem bsearch_first_index_leftmost_witness :
    bsearchLoop [rS3, rS1, rS2] "final_grade" (Value.num (Rat.mk' 191 2))
        3 0 3 none = some (some 1) ∧
    scanBackward [rS3, rS1, rS2] "final_grade" (Value.num (Rat.mk' 191 2)) 1
        (([rS3, rS1, rS2].drop 1).takeWhile
          (matchesVal "final_grade" (Value.num (Rat.mk' 191 2)))) =
      some (([rS3, rS1, rS2].drop 1).takeWhile
        (matchesVal "final_grade" (Value.num (Rat.mk' 191 2)))) :=
  bsearch_first_index_leftmost _ _ _ 1 (by decide) (by decide)
    (List.chain'_cons.mpr ⟨by decide,
      List.chain'_cons.mpr ⟨by decide, List.chain'_singleton _⟩⟩)
    (Or.inl ⟨by decide, rfl⟩)
    (by decide)
    (fun i hi hm =>
      match i, hi, hm with
      | 0, _, hm0 =>
        absurd (show matchesVal "final_grade"
          (Value.num (Rat.mk' 191 2)) rS3 = true from hm0) (by decide)
      | n + 1, _, _ => by omega)

/-! Frame properties of the heap-level quicksort: the input object is
only ever read, never written. -/

/-- Allocation returns a fresh address past the old store: reads of old
addresses are unchanged and the fresh address holds the new object. -/
theorem alloc_frame (st : Store) (xs : List Record) (st' : Store) (res : Nat)
    (h : alloc st xs = (st', res)) :
    st.length ≤ res ∧ res < st'.length ∧
    (∀ q, q < st.length → readL st' q = readL st q) ∧
    readL st' res = some xs := by
  rw [alloc] at h
  injection h with h1 h2
  subst h1
  subst h2
  refine ⟨le_rfl, ?_, ?_, List.getElem?_concat_length st xs⟩
  · rw [List.length_append, List.length_cons, List.length_nil]
    omega
  · intro q hq
    exact List.getElem?_append_left hq

/-- appendL mutates only the object at its own address: the store keeps
its length and every other address reads unchanged. -/
theorem appendL_frame {st : Store} {p : Nat} {r : Record} {st2 : Store}
    (h : appendL st p r = some st2) :
    st2.length = st.length ∧ ∀ q, q ≠ p → readL st2 q = readL st q := by
  rw [appendL] at h
  split at h
  next => cases h
  next xs hxs =>
    injection h with h
    subst h
    refine ⟨by simp, ?_⟩
    intro q hq
    exact List.getElem?_set_ne (Ne.symm hq)

/-- The partition loop mutates only the three group objects. -/
theorem partLoop_frame {a : String} {pivot : Value} {lp ep gp : Nat} :
    ∀ (rs : List Record) (st st2 : Store),
      partLoop a pivot lp ep gp rs st = some st2 →
      st2.length = st.length ∧
      ∀ q, q ≠ lp → q ≠ ep → q ≠ gp → readL st2 q = readL st q
  | [], st, st2, h => by
    rw [partLoop] at h
    injection h with h
    subst h
    exact ⟨rfl, fun q _ _ _ => rfl⟩
  | r :: rest, st, st2, h => by
    rw [partLoop] at h
    split at h
    next => cases h
    next v hv =>
      cases hc : cmpVal v pivot with
      | lt =>
        simp only [hc] at h
        split at h
        next => cases h
        next stm hstm =>
          obtain ⟨hl1, hl2⟩ := appendL_frame hstm
          obtain ⟨hr1, hr2⟩ := partLoop_frame rest stm st2 h
          exact ⟨hr1.trans hl1, fun q hql hqe hqg =>
            (hr2 q hql hqe hqg).trans (hl2 q hql)⟩
      | eq =>
        simp only [hc] at h
        split at h
        next => cases h
        next stm hstm =>
          obtain ⟨hl1, hl2⟩ := appendL_frame hstm
          obtain ⟨hr1, hr2⟩ := partLoop_frame rest stm st2 h
          exact ⟨hr1.trans hl1, fun q hql hqe hqg =>
            (hr2 q hql hqe hqg).trans (hl2 q hqe)⟩
      | gt =>
        simp only [hc] at h
        split at h
        next => cases h
        next stm hstm =>
          obtain ⟨hl1, hl2⟩ := appendL_frame hstm
          obtain ⟨hr1, hr2⟩ := partLoop_frame rest stm st2 h
          exact ⟨hr1.trans hl1, fun q hql hqe hqg =>
            (hr2 q hql hqe hqg).trans (hl2 q hqg)⟩

/-- Master frame lemma for the heap-level quicksort: the result address
is fresh (at or past the old store end), it holds an object, and every
address of the old store reads exactly as before the call. -/
theorem quicksortH_frame {a : String} {reverse : Bool} :
    ∀ (fuel : Nat) (st : Store) (p : Nat) (st' : Store) (res : Nat),
      quicksortH a reverse fuel st p = some (st', res) →
      st.length ≤ res ∧ res < st'.length ∧
      (∀ q, q < st.length → readL st' q = readL st q) ∧
      ∃ out, readL st' res = some out := by
  intro fuel
  induction fuel with
  | zero =>
    intro st p st' res hrun
    rw [quicksortH] at hrun
    split at hrun
    next => cases hrun
    next students hread =>
      split at hrun
      next =>
        injection hrun with hpair
        obtain ⟨h1, h2, h3, h4⟩ := alloc_frame st students st' res hpair
        exact ⟨h1, h2, h3, students, h4⟩
      next => cases hrun
  | succ fuel ih =>
    intro st p st' res hrun
    rw [quicksortH] at hrun
    split at hrun
    next => cases hrun
    next students hread =>
      split at hrun
      next =>
        injection hrun with hpair
        obtain ⟨h1, h2, h3, h4⟩ := alloc_frame st students st' res hpair
        exact ⟨h1, h2, h3, students, h4⟩
      next =>
        split at hrun
        next => cases hrun
        next pivotRec hpr =>
          split at hrun
          next => cases hrun
          next pivot hga =>
            simp only [alloc] at hrun
            have hep : (st ++ [[]]).length = st.length + 1 := by
              rw [List.length_append, List.length_cons, List.length_nil]
            have hgp : ((st ++ [[]]) ++ [[]]).length = st.length + 2 := by
              rw [List.length_append, hep, List.length_cons, List.length_nil]
            have hlen3 : (((st ++ [[]]) ++ [[]]) ++ [[]]).length =
                st.length + 3 := by
              rw [List.length_append, hgp, List.length_cons, List.length_nil]
            have hfr03 : ∀ q, q < st.length →
                readL (((st ++ [[]]) ++ [[]]) ++ [[]]) q = readL st q := by
              intro q hq
              have h01 : q < (st ++ [[]]).length := by omega
              have h02 : q < ((st ++ [[]]) ++ [[]]).length := by omega
              exact (List.getElem?_append_left h02).trans
                ((List.getElem?_append_left h01).trans
                  (List.getElem?_append_left hq))
            split at hrun
            next => cases hrun
            next st4 hpart =>
              obtain ⟨hplen, hpfr⟩ := partLoop_frame students _ st4 hpart
              have hfr04 : ∀ q, q < st.length → readL st4 q = readL st q := by
                intro q hq
                refine ((hpfr q (by omega) (by omega) (by omega)).trans
                  (hfr03 q hq))
              have h4len : st4.length = st.length + 3 := hplen.trans hlen3
              split at hrun
              next =>
                split at hrun
                next => cases hrun
                next st5 sgp hq1 =>
                  split at hrun
                  next => cases hrun
                  next st6 slp hq2 =>
                    split at hrun
                    next sg e sl hsg he hsl =>
                      injection hrun with hpair
                      obtain ⟨ha1, ha2, ha3, ha4⟩ := ih st4 _ st5 sgp hq1
                      obtain ⟨hb1, hb2, hb3, hb4⟩ := ih st5 _ st6 slp hq2
                      obtain ⟨hc1, hc2, hc3, hc4⟩ :=
                        alloc_frame st6 (sg ++ e ++ sl) st' res hpair
                      refine ⟨by omega, hc2, ?_, sg ++ e ++ sl, hc4⟩
                      intro q hq
                      rw [hc3 q (by omega), hb3 q (by omega), ha3 q (by omega),
                        hfr04 q hq]
                    next h1 h2 h3 => cases hrun
              next =>
                split at hrun
                next => cases hrun
                next st5 slp hq1 =>
                  split at hrun
                  next => cases hrun
                  next st6 sgp hq2 =>
                    split at hrun
                    next sl e sg hsl he hsg =>
                      injection hrun with hpair
                      obtain ⟨ha1, ha2, ha3, ha4⟩ := ih st4 _ st5 slp hq1
                      obtain ⟨hb1, hb2, hb3, hb4⟩ := ih st5 _ st6 sgp hq2
                      obtain ⟨hc1, hc2, hc3, hc4⟩ :=
                        alloc_frame st6 (sl ++ e ++ sg) st' res hpair
                      refine ⟨by omega, hc2, ?_, sl ++ e ++ sg, hc4⟩
                      intro q hq
                      rw [hc3 q (by omega), hb3 q (by omega), ha3 q (by omega),
                        hfr04 q hq]
                    next h1 h2 h3 => cases hrun

/-- C7.  quicksort never mutates its input: at the heap level, for every
store, input address, attribute and direction, whenever the call
returns, the input address still holds exactly the records it held
before the call and in the same order, and the result is a freshly
allocated object at an address distinct from the input's (in particular
the length <= 1 base case returns a copy, not the input itself). -/
theorem quicksort_no_mutation (a : String) (reverse : Bool) (fuel : Nat)
    (st st' : Store) (p res : Nat) (input : List Record)
    (hp : readL st p = some input)
    (hrun : quicksortH a reverse fuel st p = some (st', res)) :
    readL st' p = some input ∧ res ≠ p ∧ ∃ out, readL st' res = some out := by
  have hplen : p < st.length := by
    by_contra hge
    push_neg at hge
    rw [readL, List.getElem?_eq_none hge] at hp
    cases hp
  obtain ⟨h1, h2, h3, h4⟩ := quicksortH_frame fuel st p st' res hrun
  refine ⟨?_, by omega, h4⟩
  rw [h3 p hplen]
  exact hp

/-- C7 witness: running the heap-level quicksort on a store holding one
single-record list leaves the input object unchanged and returns a
fresh address (1, not the input address 0) holding the copy. -/
theorem quicksort_no_mutation_witness :
    readL [[rId2n], [rId2n]] 0 = some [rId2n] ∧ (1 : Nat) ≠ 0 ∧
    ∃ out, readL [[rId2n], [rId2n]] 1 = some out :=
  quicksort_no_mutation "student_id" false 1 [[rId2n]] [[rId2n], [rId2n]]
    0 1 [rId2n] rfl rfl
